import Mathlib

/-!
Verification of the HTML sanitizer in `src/plots/sanitize_html.py`
(with the variant `src/module/cssplt/security/sanitize.py` where noted).

The sanitizer is embedded shallowly over `List Char`:
* the policy constants and the event-driven state machine (`_Sanitizer`)
  are translated from the source;
* the tokenizer (Python's `html.parser.HTMLParser`, standard library,
  not part of `src/`) is modelled from the spec's Tokenizer contract
  (events, lower-casing, malformed spans surfacing as text), including
  the CDATA treatment of `script`/`style` element content.
-/

set_option maxRecDepth 4000
set_option maxHeartbeats 1000000

abbrev Str := List Char

/-- Lower-casing of a string, character by character (Python `str.lower`
restricted to the ASCII range relevant here). -/
def lowerS (s : Str) : Str := s.map Char.toLower

/-- Whitespace as stripped by Python `str.strip` (ASCII part). -/
def isPySpace (c : Char) : Bool :=
  c = ' ' || c = '\t' || c = '\n' || c = '\r' || c = Char.ofNat 11 || c = Char.ofNat 12

/-- Python `str.strip()`: remove leading and trailing whitespace. -/
def pyStrip (s : Str) : Str :=
  ((s.dropWhile isPySpace).reverse.dropWhile isPySpace).reverse

/-- `html.escape` on one character: `&`, `<`, `>` always, and with
`quote = true` also `"` and `'`. -/
def escChar (quote : Bool) (c : Char) : Str :=
  if c = '&' then "&amp;".data
  else if c = '<' then "&lt;".data
  else if c = '>' then "&gt;".data
  else if quote && c = '"' then "&quot;".data
  else if quote && c = Char.ofNat 39 then "&#x27;".data
  else [c]

/-- `html.escape(s, quote)`: replace the markup-significant characters
by character references. -/
def escape (quote : Bool) (s : Str) : Str := (s.map (escChar quote)).flatten

/-- The character class of `CLASS_RE = re.compile(r"^[a-zA-Z0-9_\- ]*$")`. -/
def classChar (c : Char) : Bool :=
  c.isAlpha || c.isDigit || c = '_' || c = '-' || c = ' '

/-- `CLASS_RE.match(v)` on an already stripped value: every character is in
the conservative class-name character class. -/
def classOk (s : Str) : Bool := s.all classChar

/-- `DEFAULT_ALLOWED_TAGS` from `src/plots/sanitize_html.py`. -/
def DEFAULT_ALLOWED_TAGS : List Str :=
  ["div".data, "span".data,
   "b".data, "strong".data, "i".data, "em".data,
   "code".data, "pre".data,
   "ul".data, "ol".data, "li".data,
   "br".data]

/-- `DROP_CONTENT_TAGS` from `src/plots/sanitize_html.py`: drop the entire
element and its content. A module-level constant, not a policy parameter. -/
def DROP_CONTENT_TAGS : List Str :=
  ["script".data, "style".data, "iframe".data, "object".data, "embed".data,
   "svg".data, "math".data,
   "form".data, "input".data, "button".data, "select".data, "option".data,
   "textarea".data,
   "meta".data, "link".data, "base".data,
   "audio".data, "video".data, "source".data,
   "img".data]

/-- A sanitizer policy: the `allowed_tags` / `allowed_attrs` parameters of
`sanitize_html` (the attribute map is an association list from tag name or
`"*"` to attribute names). -/
structure Policy where
  allowed_tags : List Str
  allowed_attrs : List (Str × List Str)
deriving DecidableEq

/-- `DEFAULT_ALLOWED_ATTRS = {"*": {"class"}}`. -/
def DEFAULT_ALLOWED_ATTRS : List (Str × List Str) :=
  [("*".data, ["class".data])]

/-- The default policy of `sanitize_html`. -/
def defaultPolicy : Policy :=
  ⟨DEFAULT_ALLOWED_TAGS, DEFAULT_ALLOWED_ATTRS⟩

/-- Dictionary lookup `m.get(k, set())` on the association list. -/
def alGet (m : List (Str × List Str)) (k : Str) : List Str :=
  match m.find? (fun kv => kv.1 = k) with
  | some kv => kv.2
  | none => []

/-- The lower-casing performed in `_Sanitizer.__init__` on the policy:
`{t.lower() ...}` and `{k.lower(): {a.lower() ...} ...}`. -/
def lowerPolicy (p : Policy) : Policy :=
  ⟨p.allowed_tags.map lowerS,
   p.allowed_attrs.map (fun kv => (lowerS kv.1, kv.2.map lowerS))⟩

/-- `_Sanitizer._attrs_allowed_for`: union of the wildcard entry and the
tag-specific entry. -/
def attrs_allowed_for (p : Policy) (tag : Str) : List Str :=
  alGet p.allowed_attrs ("*".data) ++ alGet p.allowed_attrs (lowerS tag)

/-- Markup events delivered by the tokenizer to the state machine
(the `HTMLParser` handler calls). -/
inductive Event where
  | startTag (name : Str) (attrs : List (Str × Option Str))
  | endTag (name : Str)
  | startEndTag (name : Str) (attrs : List (Str × Option Str))
  | text (data : Str)
  | entityRef (name : Str)
  | charRef (name : Str)
  | comment (data : Str)
deriving DecidableEq

/-- The mutable state of one `_Sanitizer` instance: the output buffer
`self.out` and `self.drop_content_stack` (top of stack at the head). -/
structure SanState where
  out : List Str
  drop_content_stack : List Str
deriving DecidableEq

/-- Fresh state built in `_Sanitizer.__init__`. -/
def initState : SanState := ⟨[], []⟩

/-- The body of the attribute loop in `_Sanitizer._emit_start`: either the
emitted ` key="value"` chunk for one attribute, or `none` when the
attribute is skipped. -/
def safeAttrChunk (allowed : List Str) (kv : Str × Option Str) : Option Str :=
  match kv.2 with
  | none => none
  | some v =>
    if lowerS kv.1 ∈ allowed then
      if lowerS kv.1 = "class".data then
        if pyStrip v = [] then none
        else if classOk (pyStrip v) then
          some (" class=\"".data ++ escape true (pyStrip v) ++ ['"'])
        else none
      else
        some ([' '] ++ lowerS kv.1 ++ "=\"".data ++ escape true v ++ ['"'])
    else none

/-- `_Sanitizer._emit_start`: the `<tag ...>` string appended to the output. -/
def emit_start (p : Policy) (tag : Str) (attrs : List (Str × Option Str)) : Str :=
  ['<'] ++ lowerS tag ++
    (attrs.filterMap (safeAttrChunk (attrs_allowed_for p (lowerS tag)))).flatten ++ ['>']

/-- `_Sanitizer._emit_end`: the `</tag>` fragments appended (one if the tag
is allowed, none otherwise). -/
def emit_end (p : Policy) (tag : Str) : List Str :=
  if lowerS tag ∈ p.allowed_tags then ["</".data ++ lowerS tag ++ ['>']] else []

/-- `_Sanitizer.handle_starttag`. -/
def handle_starttag (p : Policy) (st : SanState) (tag : Str)
    (attrs : List (Str × Option Str)) : SanState :=
  if st.drop_content_stack ≠ [] then
    if lowerS tag ∈ DROP_CONTENT_TAGS then
      ⟨st.out, lowerS tag :: st.drop_content_stack⟩
    else st
  else if lowerS tag ∈ DROP_CONTENT_TAGS then
    ⟨st.out, lowerS tag :: st.drop_content_stack⟩
  else if lowerS tag ∈ p.allowed_tags then
    ⟨st.out ++ [emit_start p (lowerS tag) attrs], st.drop_content_stack⟩
  else st

/-- `_Sanitizer.handle_endtag`. -/
def handle_endtag (p : Policy) (st : SanState) (tag : Str) : SanState :=
  match st.drop_content_stack with
  | top :: rest => if lowerS tag = top then ⟨st.out, rest⟩ else st
  | [] =>
    if lowerS tag ∈ p.allowed_tags then
      ⟨st.out ++ emit_end p (lowerS tag), []⟩
    else st

/-- `_Sanitizer.handle_startendtag`. -/
def handle_startendtag (p : Policy) (st : SanState) (tag : Str)
    (attrs : List (Str × Option Str)) : SanState :=
  if st.drop_content_stack ≠ [] then st
  else if lowerS tag ∈ DROP_CONTENT_TAGS then st
  else if lowerS tag ∈ p.allowed_tags then
    if lowerS tag = "br".data then
      ⟨st.out ++ ["<br>".data], st.drop_content_stack⟩
    else
      ⟨st.out ++ [emit_start p (lowerS tag) attrs] ++ emit_end p (lowerS tag),
       st.drop_content_stack⟩
  else st

/-- `_Sanitizer.handle_data`. -/
def handle_data (st : SanState) (data : Str) : SanState :=
  if st.drop_content_stack ≠ [] then st
  else ⟨st.out ++ [escape false data], st.drop_content_stack⟩

/-- `_Sanitizer.handle_entityref`. -/
def handle_entityref (st : SanState) (name : Str) : SanState :=
  if st.drop_content_stack ≠ [] then st
  else ⟨st.out ++ [['&'] ++ escape true name ++ [';']], st.drop_content_stack⟩

/-- `_Sanitizer.handle_charref`. -/
def handle_charref (st : SanState) (name : Str) : SanState :=
  if st.drop_content_stack ≠ [] then st
  else ⟨st.out ++ ["&#".data ++ escape true name ++ [';']], st.drop_content_stack⟩

/-- One event-processing step of the sanitizing state machine: dispatch to
the `_Sanitizer` handler for the event (comments are dropped). The policy
argument is the lower-cased policy stored by `__init__`. -/
def step (p : Policy) (st : SanState) : Event → SanState
  | .startTag name attrs => handle_starttag p st name attrs
  | .endTag name => handle_endtag p st name
  | .startEndTag name attrs => handle_startendtag p st name attrs
  | .text d => handle_data st d
  | .entityRef n => handle_entityref st n
  | .charRef n => handle_charref st n
  | .comment _ => st

/-- Feed a whole event stream through the machine. -/
def runEvents (p : Policy) (evs : List Event) : SanState :=
  evs.foldl (step p) initState

/-- `"".flatten(p.out)` for a given event stream (the policy argument is the
already lower-cased one). -/
def sanitizeEvents (p : Policy) (evs : List Event) : Str :=
  (runEvents p evs).out.flatten

/-! ## Tokenizer

Modelled from the spec: the Tokenizer (`html.parser.HTMLParser`, Python
standard library, not part of `src/`) turns the raw character stream into
events, lower-casing tag and attribute names, surfacing unparsable spans
as text, decoding character references inside attribute values, and
treating the content of `script`/`style` elements as CDATA (everything up
to the matching close tag is surfaced as text, not markup). -/

/-- Characters that may appear in a tag name (the tokenizer stops a tag
name at whitespace, `/` or `>`). -/
def tagNameChar (c : Char) : Bool := !(isPySpace c || c = '/' || c = '>')

/-- Characters that may appear in an attribute name. -/
def attrNameChar (c : Char) : Bool :=
  !(isPySpace c || c = '/' || c = '>' || c = '=' || c = '"' ||
    c = Char.ofNat 39 || c = '<' || c = '&')

/-- Characters of an entity-reference name (`[a-zA-Z][-.a-zA-Z0-9]*`). -/
def entNameChar (c : Char) : Bool := c.isAlpha || c.isDigit || c = '-' || c = '.'

/-- Characters that may appear in an unquoted attribute value. -/
def uqChar (c : Char) : Bool := !(isPySpace c || c = '>')

/-- Hexadecimal digit. -/
def hexDigitB (c : Char) : Bool :=
  c.isDigit || ('a' ≤ c && c ≤ 'f') || ('A' ≤ c && c ≤ 'F')

/-- Modelled from the spec: the character-reference decoding the tokenizer
applies to attribute values; it inverts `html.escape` (decoding the
references `escape` emits and keeping other text as is, in one
left-to-right pass without rescanning). -/
def attrUnescape : Str → Str
  | [] => []
  | '&' :: 'a' :: 'm' :: 'p' :: ';' :: rest => '&' :: attrUnescape rest
  | '&' :: 'l' :: 't' :: ';' :: rest => '<' :: attrUnescape rest
  | '&' :: 'g' :: 't' :: ';' :: rest => '>' :: attrUnescape rest
  | '&' :: 'q' :: 'u' :: 'o' :: 't' :: ';' :: rest => '"' :: attrUnescape rest
  | '&' :: '#' :: 'x' :: '2' :: '7' :: ';' :: rest =>
    Char.ofNat 39 :: attrUnescape rest
  | c :: rest => c :: attrUnescape rest

/-- Split the input at the first `>`: the span before it and the remainder
after it. -/
def findGt (l : Str) : Option (Str × Str) :=
  match l.dropWhile (fun c => !(c = '>')) with
  | _ :: r => some (l.takeWhile (fun c => !(c = '>')), r)
  | [] => none

/-- Split the input at the first occurrence of `pat`: the span before it
and the remainder after it. -/
def splitSub (pat : Str) : Str → Option (Str × Str)
  | [] => none
  | c :: rest =>
    if pat.isPrefixOf (c :: rest) then some ([], (c :: rest).drop pat.length)
    else
      match splitSub pat rest with
      | some (a, b) => some (c :: a, b)
      | none => none

/-- Parse an optional attribute value (the input starts right after the
attribute name): an `=` possibly surrounded by whitespace, then a
double-quoted, single-quoted or unquoted value. Returns the decoded value
(if any) and the remaining input. -/
def parseAttrValue (l : Str) : Option Str × Str :=
  match l.dropWhile isPySpace with
  | '=' :: r1 =>
    match r1.dropWhile isPySpace with
    | q :: r3 =>
      if q = '"' ∨ q = Char.ofNat 39 then
        (some (attrUnescape (r3.takeWhile (fun x => !(x = q)))),
         (r3.dropWhile (fun x => !(x = q))).tail)
      else
        (some (attrUnescape ((q :: r3).takeWhile uqChar)),
         (q :: r3).dropWhile uqChar)
    | [] => (none, [])
  | _ => (none, l)

/-- Parse one attribute starting at `c :: rest` (with `c` a valid
attribute-name character): the `(name, value?)` pair and the remaining
input. -/
def parseOneAttr (c : Char) (rest : Str) : (Str × Option Str) × Str :=
  let name := (c :: rest).takeWhile attrNameChar
  let pv := parseAttrValue ((c :: rest).dropWhile attrNameChar)
  ((name, pv.1), pv.2)

/-- Parse the attribute section of a start tag, up to and including the
closing `>`: the attribute list, whether the tag was self-closing
(`... />`), and the remaining input. Whitespace and stray `/` are
skipped; `none` when the input ends before `>`. The fuel argument only
drives the recursion; any fuel of at least the input length gives the
same result. -/
def parseAttrs : Nat → Str → Option (List (Str × Option Str) × Bool × Str)
  | _, [] => none
  | 0, _ :: _ => none
  | fuel + 1, c :: rest =>
    if c = '>' then some ([], false, rest)
    else if c = '/' ∧ rest.head? = some '>' then some ([], true, rest.tail)
    else if c = '/' then parseAttrs fuel rest
    else if isPySpace c then parseAttrs fuel rest
    else if attrNameChar c then
      match parseAttrs fuel (parseOneAttr c rest).2 with
      | some (as, sc, r) => some ((parseOneAttr c rest).1 :: as, sc, r)
      | none => none
    else parseAttrs fuel rest

/-- Parse an end tag (the input starts right after `</`): optional
whitespace, a name starting with a letter, then everything up to and
including the closing `>` (attributes in end tags are ignored). -/
def parseEndTag (l : Str) : Option (Event × Str) :=
  match (l.dropWhile isPySpace).head? with
  | some c =>
    if c.isAlpha then
      match findGt ((l.dropWhile isPySpace).dropWhile tagNameChar) with
      | some (_, rest) =>
        some (.endTag (lowerS ((l.dropWhile isPySpace).takeWhile tagNameChar)), rest)
      | none => none
    else none
  | none => none

/-- Tokenizer modes: normal markup, or inside the raw content of a
`script`/`style` element (CDATA). -/
inductive TkMode where
  | normal
  | cdata (t : Str)
deriving DecidableEq

/-- Parse what follows a `<` in normal mode: an end tag, a comment or
comment-like construct (declaration, processing instruction), or a start
tag (possibly self-closing). Returns the event, the next tokenizer mode,
and the remaining input; `none` when the span is not parsable as markup
(the caller then surfaces the `<` as text). -/
def parseLt (l : Str) : Option (Event × TkMode × Str) :=
  match l with
  | [] => none
  | '/' :: r =>
    match parseEndTag r with
    | some (e, rest) => some (e, .normal, rest)
    | none =>
      match findGt r with
      | some (txt, rest) => some (.comment txt, .normal, rest)
      | none => none
  | '!' :: r =>
    if "--".data.isPrefixOf r then
      match splitSub "-->".data (r.drop 2) with
      | some (txt, rest) => some (.comment txt, .normal, rest)
      | none => some (.comment (r.drop 2), .normal, [])
    else
      match findGt r with
      | some (txt, rest) => some (.comment txt, .normal, rest)
      | none => none
  | '?' :: r =>
    match findGt r with
    | some (txt, rest) => some (.comment txt, .normal, rest)
    | none => none
  | c :: r =>
    if c.isAlpha then
      match parseAttrs ((c :: r).dropWhile tagNameChar).length
          ((c :: r).dropWhile tagNameChar) with
      | some (attrs, sc, rest) =>
        if sc then
          some (.startEndTag (lowerS ((c :: r).takeWhile tagNameChar)) attrs,
            .normal, rest)
        else if lowerS ((c :: r).takeWhile tagNameChar) = "script".data ∨
            lowerS ((c :: r).takeWhile tagNameChar) = "style".data then
          some (.startTag (lowerS ((c :: r).takeWhile tagNameChar)) attrs,
            .cdata (lowerS ((c :: r).takeWhile tagNameChar)), rest)
        else
          some (.startTag (lowerS ((c :: r).takeWhile tagNameChar)) attrs,
            .normal, rest)
      | none => none
    else none

/-- Parse a character or entity reference (the input starts right after
`&`): `&#` digits, `&#x` hexadecimal digits, or a named reference. The
reference name is delivered without the `&`; a terminating `;` is
consumed. `none` when the span is not a reference (the caller surfaces
the `&` as text). -/
def parseAmp (l : Str) : Option (Event × Str) :=
  match l with
  | [] => none
  | '#' :: r =>
    match r with
    | [] => none
    | c :: r2 =>
      if c = 'x' ∨ c = 'X' then
        if (r2.takeWhile hexDigitB) = [] ∨ (r2.dropWhile hexDigitB) = [] then none
        else
          some (.charRef (c :: r2.takeWhile hexDigitB),
            if (r2.dropWhile hexDigitB).head? = some ';' then
              (r2.dropWhile hexDigitB).tail
            else r2.dropWhile hexDigitB)
      else
        if ((c :: r2).takeWhile Char.isDigit) = [] ∨
            ((c :: r2).dropWhile Char.isDigit) = [] then none
        else
          some (.charRef ((c :: r2).takeWhile Char.isDigit),
            if ((c :: r2).dropWhile Char.isDigit).head? = some ';' then
              ((c :: r2).dropWhile Char.isDigit).tail
            else (c :: r2).dropWhile Char.isDigit)
  | c :: r =>
    if c.isAlpha then
      if ((c :: r).dropWhile entNameChar) = [] then none
      else
        some (.entityRef ((c :: r).takeWhile entNameChar),
          if ((c :: r).dropWhile entNameChar).head? = some ';' then
            ((c :: r).dropWhile entNameChar).tail
          else (c :: r).dropWhile entNameChar)
    else none

/-- The tokenizer loop: turn the input into an event stream. In normal
mode, `<` starts markup (falling back to a literal `<` text event when
unparsable), `&` starts a reference (falling back to a literal `&`), any
other character is text. In CDATA mode (inside `script`/`style`) all
input is text until the matching close tag. The fuel argument only
drives the recursion; any fuel above the input length gives the same
events. -/
def tokGo : Nat → TkMode → Str → List Event
  | 0, _, _ => []
  | _ + 1, _, [] => []
  | fuel + 1, .cdata t, c :: r =>
    if ("</".data ++ t).isPrefixOf (lowerS (c :: r)) then
      match ((c :: r).drop (2 + t.length)).dropWhile isPySpace with
      | '>' :: rest => .endTag t :: tokGo fuel .normal rest
      | _ =>
        .text ((c :: r).take (2 + t.length)) ::
          tokGo fuel (.cdata t) ((c :: r).drop (2 + t.length))
    else .text [c] :: tokGo fuel (.cdata t) r
  | fuel + 1, .normal, c :: r =>
    if c = '<' then
      match parseLt r with
      | some (e, m, rest) => e :: tokGo fuel m rest
      | none => .text ['<'] :: tokGo fuel .normal r
    else if c = '&' then
      match parseAmp r with
      | some (e, rest) => e :: tokGo fuel .normal rest
      | none => .text ['&'] :: tokGo fuel .normal r
    else .text [c] :: tokGo fuel .normal r

/-- Tokenize a raw input string (fuel fixed to a sufficient value). -/
def tokenize (s : Str) : List Event :=
  tokGo (s.length + 1) .normal s

/-- `sanitize_html(raw, allowed_tags, allowed_attrs)` from
`src/plots/sanitize_html.py`: `None` (and NaN) maps to the empty string;
otherwise the input is tokenized, fed through a fresh `_Sanitizer` whose
policy is the lower-cased `(allowed_tags, allowed_attrs)`, and the output
buffer is joined. -/
def sanitize_html (raw : Option String) (p : Policy) : String :=
  match raw with
  | none => ""
  | some s => ⟨sanitizeEvents (lowerPolicy p) (tokenize s.data)⟩

/-! ## Decoding of numeric character references

Modelled from the spec: "decode to the underlying character" for a
numeric character reference (`html.unescape` of the Python standard
library is not part of `src/`). Only the plain numeric forms are needed
here. -/

/-- Value of a decimal digit string. -/
def decDigitsVal (l : Str) : Nat := l.foldl (fun a c => a * 10 + (c.toNat - 48)) 0

/-- Modelled from the spec: decode a numeric character reference name
(the part between `&#` and `;`) to the underlying character. -/
def decodeCharRef (name : Str) : Str := [Char.ofNat (decDigitsVal name)]

/-- A contradictory configuration: `script` both allowed and (by the
module constant `DROP_CONTENT_TAGS`) a drop-content tag. -/
def contradictoryPolicy : Policy :=
  ⟨["script".data], DEFAULT_ALLOWED_ATTRS⟩

/-- An attribute chunk emitted for a validated `class` attribute:
`" class=\"v\""` with `v` passing the class-name validator. -/
def ClassChunk (ch : Str) : Prop :=
  ∃ v, ch = " class=\"".data ++ v ++ ['"'] ∧ classOk v = true

/-- An attribute chunk starting with a space (every chunk
`_emit_start` appends starts with one). -/
def SpaceChunk (ch : Str) : Prop :=
  ∃ w, ch = ' ' :: w

/-- Shape of a fragment the sanitizer may append to the output buffer,
for a policy `p` and a per-chunk property `C`: either text-like (no `<`
at all), or a start tag `<t ...>` of an allowed tag whose attribute
chunks all satisfy `C`, or an end tag `</t>` of an allowed tag. -/
def FragOK (p : Policy) (C : Str → Prop) (s : Str) : Prop :=
  ('<' ∉ s) ∨
  (∃ (t : Str) (chunks : List Str), t ∈ p.allowed_tags ∧ (∀ ch ∈ chunks, C ch) ∧
    s = '<' :: (t ++ chunks.flatten ++ ['>'])) ∨
  (∃ t : Str, t ∈ p.allowed_tags ∧ s = '<' :: '/' :: (t ++ ['>']))

/-- The tag name of an output fragment: for `<name ...>` or `</name>`
the name, `none` for fragments not starting with `<`. -/
def outFragTag (s : Str) : Option Str :=
  match s with
  | '<' :: '/' :: r => some (r.takeWhile tagNameChar)
  | '<' :: r => some (r.takeWhile tagNameChar)
  | _ => none

/-- A well-formed lower-case tag name as the tokenizer delivers it:
non-empty, starting with a letter, made of tag-name characters, fixed by
lower-casing. -/
def ValidTagLow (t : Str) : Prop :=
  t ≠ [] ∧ (∀ c ∈ t.take 1, c.isAlpha = true) ∧ t.all tagNameChar = true ∧
    lowerS t = t

/-- A well-formed attribute key as the tokenizer delivers it. -/
def ValidAttrKey (k : Str) : Prop :=
  k ≠ [] ∧ k.all attrNameChar = true

/-- A well-formed entity-reference name. -/
def EntName (n : Str) : Prop :=
  n ≠ [] ∧ (∀ c ∈ n.take 1, c.isAlpha = true) ∧ n.all entNameChar = true

/-- A well-formed character-reference name: decimal digits, or `x`/`X`
followed by hexadecimal digits. -/
def RefName (n : Str) : Prop :=
  (n ≠ [] ∧ n.all Char.isDigit = true ∧ (∀ c ∈ n.take 1, c ≠ 'x' ∧ c ≠ 'X')) ∨
  (∃ (c : Char) (ds : Str), n = c :: ds ∧ (c = 'x' ∨ c = 'X') ∧ ds ≠ [] ∧
    ds.all hexDigitB = true)

/-- Validity of a single tokenizer event: its names are well-formed (no
constraint on text, comments or attribute values). -/
def ValidEvent : Event → Prop
  | .startTag name attrs => ValidTagLow name ∧ ∀ kv ∈ attrs, ValidAttrKey kv.1
  | .endTag name => ValidTagLow name
  | .startEndTag name attrs => ValidTagLow name ∧ ∀ kv ∈ attrs, ValidAttrKey kv.1
  | .text _ => True
  | .entityRef n => EntName n
  | .charRef n => RefName n
  | .comment _ => True

/-- The sanitized-text language: what escaped character data looks like.
Safe characters (not `&`, `<`, `>`), and the three references `escape`
emits. -/
inductive SanText : Str → Prop
  | nil : SanText []
  | safe (c : Char) (f : Str) (hc : c ≠ '&' ∧ c ≠ '<' ∧ c ≠ '>')
      (h : SanText f) : SanText (c :: f)
  | amp (f : Str) (h : SanText f) : SanText ('&' :: 'a' :: 'm' :: 'p' :: ';' :: f)
  | lt (f : Str) (h : SanText f) : SanText ('&' :: 'l' :: 't' :: ';' :: f)
  | gt (f : Str) (h : SanText f) : SanText ('&' :: 'g' :: 't' :: ';' :: f)

/-- An attribute chunk in sanitized output, for the (lower-cased) policy
`p` and tag `t`: a validated class chunk, or an allowed non-class
attribute with an escaped value. -/
def SanChunk (p : Policy) (t : Str) (ch : Str) : Prop :=
  (∃ v2 : Str, ch = " class=\"".data ++ v2 ++ ['"'] ∧ classOk v2 = true ∧
    v2 ≠ [] ∧ pyStrip v2 = v2 ∧ "class".data ∈ attrs_allowed_for p t) ∨
  (∃ (k : Str) (v : Str), ch = ' ' :: (k ++ '=' :: '"' :: (escape true v ++ ['"'])) ∧
    k ∈ attrs_allowed_for p t ∧ k ≠ "class".data ∧ ValidAttrKey k ∧ lowerS k = k)

/-- A fragment of sanitized output for the (lower-cased) policy `p`:
escaped text, a re-emitted entity or character reference, a start tag of
an allowed non-drop tag with sanitized chunks, or an end tag of an
allowed tag. -/
def SanFrag (p : Policy) (s : Str) : Prop :=
  SanText s ∨
  (∃ n : Str, s = '&' :: (n ++ [';']) ∧ EntName n) ∨
  (∃ n : Str, s = '&' :: '#' :: (n ++ [';']) ∧ RefName n) ∨
  (∃ (t : Str) (chunks : List Str), s = '<' :: (t ++ chunks.flatten ++ ['>']) ∧
    ValidTagLow t ∧ t ∈ p.allowed_tags ∧ t ∉ DROP_CONTENT_TAGS ∧
    (∀ ch ∈ chunks, SanChunk p t ch)) ∨
  (∃ t : Str, s = '<' :: '/' :: (t ++ ['>']) ∧ ValidTagLow t ∧ t ∈ p.allowed_tags)

/-- What one event contributes to the output when the machine is in the
Normal state and the event does not start a drop region. -/
def emitN (p : Policy) : Event → List Str
  | .startTag n a =>
    if lowerS n ∈ DROP_CONTENT_TAGS then []
    else if lowerS n ∈ p.allowed_tags then [emit_start p (lowerS n) a] else []
  | .endTag n => if lowerS n ∈ p.allowed_tags then emit_end p (lowerS n) else []
  | .startEndTag n a =>
    if lowerS n ∈ DROP_CONTENT_TAGS then []
    else if lowerS n ∈ p.allowed_tags then
      (if lowerS n = "br".data then ["<br>".data]
       else [emit_start p (lowerS n) a] ++ emit_end p (lowerS n))
    else []
  | .text d => [escape false d]
  | .entityRef n => [['&'] ++ escape true n ++ [';']]
  | .charRef n => ["&#".data ++ escape true n ++ [';']]
  | .comment _ => []

/-- An event that never pushes onto the drop stack from the Normal
state. -/
def NonDropEvent : Event → Prop
  | .startTag n _ => lowerS n ∉ DROP_CONTENT_TAGS
  | _ => True

/-- Validity of a tokenizer mode: a CDATA mode carries a valid
lower-case tag name. -/
def ValidMode : TkMode → Prop
  | .normal => True
  | .cdata t => ValidTagLow t

/-! ## Auxiliary lemmas about the parsers -/

/-- Length bound for `dropWhile`. -/
theorem dropWhile_len_le (p : Char → Bool) (l : Str) :
    (l.dropWhile p).length ≤ l.length :=
  (List.dropWhile_suffix p).sublist.length_le

/-- The remainder returned by `findGt` is shorter than the input. -/
theorem findGt_length {l a r : Str} (h : findGt l = some (a, r)) :
    r.length < l.length := by
  unfold findGt at h
  cases hd : l.dropWhile (fun c => !(c = '>')) with
  | nil => rw [hd] at h; exact absurd h (by simp)
  | cons x xs =>
    rw [hd] at h
    have hlen : xs.length + 1 ≤ l.length := by
      have := dropWhile_len_le (fun c => !(c = '>')) l
      rw [hd] at this
      simpa using this
    cases h
    omega

/-- The remainder returned by `splitSub` is no longer than the input. -/
theorem splitSub_length {pat : Str} : ∀ {l a b : Str},
    splitSub pat l = some (a, b) → b.length ≤ l.length := by
  intro l
  induction l with
  | nil => intro a b h; simp [splitSub] at h
  | cons c rest ih =>
    intro a b h
    unfold splitSub at h
    by_cases hp : pat.isPrefixOf (c :: rest)
    · rw [if_pos hp] at h
      cases h
      simp [List.length_drop] <;> omega
    · rw [if_neg hp] at h
      cases hs : splitSub pat rest with
      | none => rw [hs] at h; exact absurd h (by simp)
      | some ab =>
        rw [hs] at h
        cases ab with
        | mk a' b' =>
          cases h
          have := ih hs
          simp <;> omega

/-- The remainder returned by `parseAttrValue` is no longer than the input. -/
theorem parseAttrValue_length (l : Str) : (parseAttrValue l).2.length ≤ l.length := by
  unfold parseAttrValue
  have h0 : (l.dropWhile isPySpace).length ≤ l.length := dropWhile_len_le _ _
  split
  · rename_i r1 hws
    rw [hws] at h0
    have h1 : (r1.dropWhile isPySpace).length ≤ r1.length := dropWhile_len_le _ _
    split
    · rename_i q r3 hws2
      rw [hws2] at h1
      split
      · dsimp only
        have h2 := dropWhile_len_le (fun x => !(x = q)) r3
        have h3 := List.length_tail (r3.dropWhile (fun x => !(x = q)))
        simp only [List.length_cons] at h0 h1
        omega
      · dsimp only
        have h2 := dropWhile_len_le uqChar (q :: r3)
        simp only [List.length_cons] at h0 h1 h2
        omega
    · simp
  · exact le_refl _

/-- One attribute consumes at least the character that started it. -/
theorem parseOneAttr_length (c : Char) (rest : Str) (h : attrNameChar c = true) :
    (parseOneAttr c rest).2.length ≤ rest.length := by
  unfold parseOneAttr
  have hafter : (c :: rest).dropWhile attrNameChar = rest.dropWhile attrNameChar := by
    simp [List.dropWhile_cons, h]
  dsimp only
  rw [hafter]
  exact le_trans (parseAttrValue_length _) (dropWhile_len_le _ _)

/-- The remainder returned by `parseAttrs` is shorter than the input. -/
theorem parseAttrs_length : ∀ {fuel : Nat} {l : Str} {as : List (Str × Option Str)}
    {sc : Bool} {r : Str}, parseAttrs fuel l = some (as, sc, r) →
    r.length < l.length := by
  intro fuel
  induction fuel with
  | zero =>
    intro l as sc r h
    match l with
    | [] => simp [parseAttrs] at h
    | c :: rest => simp [parseAttrs] at h
  | succ fuel ih =>
    intro l as sc r h
    match l with
    | [] => simp [parseAttrs] at h
    | c :: rest =>
      unfold parseAttrs at h
      by_cases hgt : c = '>'
      · rw [if_pos hgt] at h
        cases h
        simp
      · rw [if_neg hgt] at h
        by_cases hse : c = '/' ∧ rest.head? = some '>'
        · rw [if_pos hse] at h
          cases h
          have := List.length_tail rest
          simp only [List.length_cons]
          omega
        · rw [if_neg hse] at h
          by_cases hsl : c = '/'
          · rw [if_pos hsl] at h
            have := ih h
            simp only [List.length_cons]
            omega
          · rw [if_neg hsl] at h
            by_cases hws : isPySpace c
            · rw [if_pos hws] at h
              have := ih h
              simp only [List.length_cons]
              omega
            · rw [if_neg hws] at h
              by_cases hattr : attrNameChar c
              · rw [if_pos hattr] at h
                have hlen := parseOneAttr_length c rest hattr
                cases hrec : parseAttrs fuel (parseOneAttr c rest).2 with
                | none => rw [hrec] at h; exact absurd h (by simp)
                | some v =>
                  rw [hrec] at h
                  match v with
                  | (as', sc', r') =>
                    cases h
                    have := ih hrec
                    simp only [List.length_cons]
                    omega
              · rw [if_neg hattr] at h
                have := ih h
                simp only [List.length_cons]
                omega

/-- Any two sufficient fuels give `parseAttrs` the same result. -/
theorem parseAttrs_fuel : ∀ {fuel fuel' : Nat} {l : Str},
    l.length ≤ fuel → l.length ≤ fuel' →
    parseAttrs fuel l = parseAttrs fuel' l := by
  intro fuel
  induction fuel with
  | zero =>
    intro fuel' l h h'
    have : l = [] := List.length_eq_zero.mp (Nat.le_zero.mp h)
    subst this
    cases fuel' <;> simp [parseAttrs]
  | succ fuel ih =>
    intro fuel' l h h'
    match l with
    | [] => cases fuel' <;> simp [parseAttrs]
    | c :: rest =>
      match fuel' with
      | 0 => simp at h'
      | fuel' + 1 =>
        simp only [List.length_cons] at h h'
        unfold parseAttrs
        have hr : rest.length ≤ fuel := by omega
        have hr' : rest.length ≤ fuel' := by omega
        by_cases hgt : c = '>'
        · rw [if_pos hgt, if_pos hgt]
        · rw [if_neg hgt, if_neg hgt]
          by_cases hse : c = '/' ∧ rest.head? = some '>'
          · rw [if_pos hse, if_pos hse]
          · rw [if_neg hse, if_neg hse]
            by_cases hsl : c = '/'
            · rw [if_pos hsl, if_pos hsl]
              exact ih hr hr'
            · rw [if_neg hsl, if_neg hsl]
              by_cases hws : isPySpace c
              · rw [if_pos hws, if_pos hws]
                exact ih hr hr'
              · rw [if_neg hws, if_neg hws]
                by_cases hattr : attrNameChar c
                · rw [if_pos hattr, if_pos hattr]
                  have hlen := parseOneAttr_length c rest hattr
                  rw [ih (le_trans hlen hr) (le_trans hlen hr')]
                · rw [if_neg hattr, if_neg hattr]
                  exact ih hr hr'

/-- The remainder returned by `parseEndTag` is shorter than the input. -/
theorem parseEndTag_length {l : Str} {e : Event} {r : Str}
    (h : parseEndTag l = some (e, r)) : r.length < l.length := by
  unfold parseEndTag at h
  split at h
  · split at h
    · split at h
      · rename_i c hh ha a' r' hg
        cases h
        have h1 := findGt_length hg
        have h2 := dropWhile_len_le tagNameChar (l.dropWhile isPySpace)
        have h3 := dropWhile_len_le isPySpace l
        omega
      · exact absurd h (by simp)
    · exact absurd h (by simp)
  · exact absurd h (by simp)

/-- The remainder returned by `parseLt` is no longer than the input. -/
theorem parseLt_length : ∀ {l : Str} {e : Event} {m : TkMode} {r : Str},
    parseLt l = some (e, m, r) → r.length ≤ l.length := by
  intro l e m r h
  unfold parseLt at h
  split at h
  · exact absurd h (by simp)
  · rename_i r0
    split at h
    · rename_i e' rest hp
      cases h
      have := parseEndTag_length hp
      simp only [List.length_cons]
      omega
    · split at h
      · rename_i txt rest hg
        cases h
        have := findGt_length hg
        simp only [List.length_cons]
        omega
      · exact absurd h (by simp)
  · rename_i r0
    split at h
    · split at h
      · rename_i txt rest hs
        cases h
        have h1 := splitSub_length hs
        have h2 := List.length_drop 2 r0
        simp only [List.length_cons]
        omega
      · cases h
        simp
    · split at h
      · rename_i txt rest hg
        cases h
        have := findGt_length hg
        simp only [List.length_cons]
        omega
      · exact absurd h (by simp)
  · rename_i r0
    split at h
    · rename_i txt rest hg
      cases h
      have := findGt_length hg
      simp only [List.length_cons]
      omega
    · exact absurd h (by simp)
  · rename_i c r0 hne1 hne2 hne3
    split at h
    · split at h
      · rename_i attrs sc rest hp
        have h1 := parseAttrs_length hp
        have h2 := dropWhile_len_le tagNameChar (c :: r0)
        simp only [List.length_cons] at h2
        split at h
        · cases h
          simp only [List.length_cons]
          omega
        · split at h
          · cases h
            simp only [List.length_cons]
            omega
          · cases h
            simp only [List.length_cons]
            omega
      · exact absurd h (by simp)
    · exact absurd h (by simp)

/-- The remainder returned by `parseAmp` is no longer than the input. -/
theorem parseAmp_length : ∀ {l : Str} {e : Event} {r : Str},
    parseAmp l = some (e, r) → r.length ≤ l.length := by
  intro l e r h
  unfold parseAmp at h
  split at h
  · exact absurd h (by simp)
  · rename_i r0
    split at h
    · exact absurd h (by simp)
    · rename_i c r2
      split at h
      · split at h
        · exact absurd h (by simp)
        · cases h
          have h1 := dropWhile_len_le hexDigitB r2
          have h2 := List.length_tail (r2.dropWhile hexDigitB)
          simp only [List.length_cons]
          split <;> omega
      · split at h
        · exact absurd h (by simp)
        · cases h
          have h1 := dropWhile_len_le Char.isDigit (c :: r2)
          have h2 := List.length_tail ((c :: r2).dropWhile Char.isDigit)
          simp only [List.length_cons] at h1 h2 ⊢
          split <;> omega
  · rename_i c r0 hne1
    split at h
    · split at h
      · exact absurd h (by simp)
      · cases h
        have h1 := dropWhile_len_le entNameChar (c :: r0)
        have h2 := List.length_tail ((c :: r0).dropWhile entNameChar)
        simp only [List.length_cons] at h1 ⊢
        split <;> omega
    · exact absurd h (by simp)

/-- `Char.ofNat` at a valid code point. -/
theorem char_ofNat_toNat {m : Nat} (h : m < 55296) : (Char.ofNat m).toNat = m := by
  unfold Char.ofNat
  rw [dif_pos (Or.inl h)]
  unfold Char.ofNatAux Char.toNat
  simp [UInt32.ofNat', UInt32.toNat, BitVec.toNat_ofNatLt]

/-- `Char.toLower` is idempotent. -/
theorem char_toLower_toLower (c : Char) : c.toLower.toLower = c.toLower := by
  unfold Char.toLower
  by_cases h : c.toNat ≥ 65 ∧ c.toNat ≤ 90
  · rw [if_pos h]
    have h2 : (Char.ofNat (c.toNat + 32)).toNat = c.toNat + 32 :=
      char_ofNat_toNat (by omega)
    rw [h2]
    rw [if_neg (by omega)]
  · rw [if_neg h, if_neg h]

/-- Lower-casing a string is idempotent. -/
theorem lowerS_idem (s : Str) : lowerS (lowerS s) = lowerS s := by
  unfold lowerS
  rw [List.map_map]
  apply List.map_congr_left
  intro c _
  exact char_toLower_toLower c

/-! ## Claim theorems -/

/-- C3, counterexample: the claim's concrete expectation
`sanitize("<script><script>a</script>b</script>c") == "c"` is false on
the code: the tokenizer delivers the content of a `script` element as
raw text (CDATA), so the inner `<script>` never reaches
`handle_starttag`, the drop stack never gets past depth 1, and both `b`
and `c` survive: the output is `"bc"`. -/
theorem c3_counterexample :
    sanitize_html (some "<script><script>a</script>b</script>c") defaultPolicy = "bc" ∧
    ¬ sanitize_html (some "<script><script>a</script>b</script>c") defaultPolicy = "c" :=
  ⟨by rfl, by decide⟩

/-- C3, amended: while dropping, an EndTag pops the drop stack iff its
lower-cased name equals the stack top (and the output is untouched
either way); but since `script` content is tokenized as CDATA, the
depth-2 input of the claim yields `"bc"`, not `"c"`. -/
theorem c3_dropping_endtag (p : Policy) (st : SanState) (name top : Str)
    (rest : List Str) (h : st.drop_content_stack = top :: rest) :
    ((step p st (.endTag name)).drop_content_stack =
      if lowerS name = top then rest else top :: rest) ∧
    (step p st (.endTag name)).out = st.out ∧
    sanitize_html (some "<script><script>a</script>b</script>c") defaultPolicy = "bc" := by
  refine ⟨?_, ?_, by rfl⟩
  · simp only [step, handle_endtag, h]
    split <;> rename_i hif
    · rfl
    · exact h
  · simp only [step, handle_endtag, h]
    split <;> rfl

/-- C3, witness for the amended theorem at a concrete dropping state. -/
theorem c3_dropping_endtag_witness :
    ((step defaultPolicy ⟨[], ["script".data]⟩ (.endTag "script".data)).drop_content_stack =
      if lowerS "script".data = "script".data then [] else ["script".data]) ∧
    (step defaultPolicy ⟨[], ["script".data]⟩ (.endTag "script".data)).out = [] ∧
    sanitize_html (some "<script><script>a</script>b</script>c") defaultPolicy = "bc" :=
  c3_dropping_endtag defaultPolicy ⟨[], ["script".data]⟩ "script".data "script".data [] rfl

/-- C5, counterexample: the claim says an EntityRef/CharRef in the Normal
state is decoded to the underlying character and then re-escaped. The
code (`_Sanitizer.handle_charref` / `handle_entityref` in
`src/plots/sanitize_html.py`) does not decode: it re-emits the reference
with its name escaped. For `CharRef "65"` the decoded-and-escaped text
would be `"A"`, but the machine appends `"&#65;"`. -/
theorem c5_counterexample :
    sanitizeEvents defaultPolicy [.charRef "65".data] = "&#65;".data ∧
    escape true (decodeCharRef "65".data) = "A".data ∧
    ¬ sanitizeEvents defaultPolicy [.charRef "65".data] =
      escape true (decodeCharRef "65".data) := by
  refine ⟨by rfl, by rfl, by decide⟩

/-- C5, amended: in the Normal state an EntityRef/CharRef event is
re-emitted as `&name;` / `&#name;` with the name escaped — no decoding
takes place. For the three references that `escape` itself produces for
text (`amp`, `lt`, `gt`) this coincides with decode-then-re-escape, which
is why text round-trips; for other references (named ones such as
`eacute`, and all numeric ones) the output keeps the reference form. -/
theorem c5_refs_passthrough (st : SanState) (name : Str)
    (h : st.drop_content_stack = []) :
    (handle_entityref st name).out = st.out ++ [['&'] ++ escape true name ++ [';']] ∧
    (handle_charref st name).out = st.out ++ ["&#".data ++ escape true name ++ [';']] ∧
    ['&'] ++ escape true "amp".data ++ [';'] = escape true "&".data ∧
    ['&'] ++ escape true "lt".data ++ [';'] = escape true "<".data ∧
    ['&'] ++ escape true "gt".data ++ [';'] = escape true ">".data := by
  refine ⟨?_, ?_, by decide, by decide, by decide⟩
  · simp [handle_entityref, h]
  · simp [handle_charref, h]

/-- C5, witness for the passthrough theorem at the initial state. -/
theorem c5_refs_passthrough_witness :
    (handle_entityref initState "eacute".data).out =
      [] ++ [['&'] ++ escape true "eacute".data ++ [';']] :=
  (c5_refs_passthrough initState "eacute".data rfl).1

/-- C6, counterexample: the claim says the void element `br` never
receives a closing tag in the output, however the input closes it. But
`_Sanitizer._emit_end` has no void-element check: an explicit `</br>` in
Normal state is emitted, because `br` is in the default allowed tags. -/
theorem c6_counterexample :
    sanitize_html (some "</br>") defaultPolicy = "</br>" := by rfl

/-- C6, amended: in the Normal state an EndTag emits `</name>` iff the
lower-cased name is in `allowed_tags` — with no void-element exception:
an explicit `</br>` yields `</br>`. Only the self-closing form goes
through `handle_startendtag`, whose `br` special case emits `<br>`
without a synthesized closing tag. -/
theorem c6_endtag_emission (p : Policy) (st : SanState) (name : Str)
    (h : st.drop_content_stack = []) :
    (handle_endtag p st name).out =
      (if lowerS name ∈ p.allowed_tags then
        st.out ++ ["</".data ++ lowerS name ++ ['>']]
      else st.out) ∧
    sanitize_html (some "<br/>") defaultPolicy = "<br>" ∧
    sanitize_html (some "</br>") defaultPolicy = "</br>" := by
  refine ⟨?_, by rfl, by rfl⟩
  simp only [handle_endtag, h, emit_end, lowerS_idem]
  split <;> rename_i hif
  · rfl
  · rfl

/-- C6, witness for the amended theorem: `</br>` is emitted for `br`. -/
theorem c6_endtag_emission_witness :
    (handle_endtag defaultPolicy initState "br".data).out =
      (if lowerS "br".data ∈ defaultPolicy.allowed_tags then
        [] ++ ["</".data ++ lowerS "br".data ++ ['>']]
      else []) ∧
    sanitize_html (some "<br/>") defaultPolicy = "<br>" ∧
    sanitize_html (some "</br>") defaultPolicy = "</br>" :=
  c6_endtag_emission defaultPolicy initState "br".data rfl

/-- C7: `sanitize_html` maps the null-equivalent input (`None`/NaN) and
the empty string to the empty string, for every policy. Totality holds by
construction of the embedding: the tokenizer, the state machine and
`sanitize_html` itself are total functions over all inputs (mirroring
that `HTMLParser.feed`/`close` never raise on malformed input). -/
theorem c7_total_empty_null (p : Policy) :
    sanitize_html none p = "" ∧ sanitize_html (some "") p = "" := by
  constructor
  · rfl
  · rfl

/-- C7, witness at the default policy. -/
theorem c7_total_empty_null_witness :
    sanitize_html none defaultPolicy = "" ∧
    sanitize_html (some "") defaultPolicy = "" :=
  c7_total_empty_null defaultPolicy

/-- C8, counterexample: the claim says a tag present in both
`allowed_tags` and the drop-content set is rejected at
policy-construction time with a configuration error. The code has no
policy construction step and no validation at all: `sanitize_html`
accepts the contradictory configuration and sanitizes normally (the
result type is a plain string, there is no error channel). -/
theorem c8_counterexample :
    "script".data ∈ contradictoryPolicy.allowed_tags ∧
    "script".data ∈ DROP_CONTENT_TAGS ∧
    sanitize_html (some "<script>x</script>ok") contradictoryPolicy = "ok" :=
  ⟨by decide, by decide, by rfl⟩

/-- C8, amended: no construction-time validation exists; a tag in both
`allowed_tags` and `DROP_CONTENT_TAGS` is accepted silently and
`DROP_CONTENT_TAGS` takes precedence for start tags (the element and its
content are dropped even though the tag is allowed), while a bare end tag
of such a tag in the Normal state is still emitted; no error is ever
raised (sanitization is total). -/
theorem c8_no_validation (p : Policy) (st : SanState) (t : Str)
    (attrs : List (Str × Option Str))
    (hdrop : lowerS t ∈ DROP_CONTENT_TAGS)
    (hallow : lowerS t ∈ p.allowed_tags)
    (hempty : st.drop_content_stack = []) :
    (handle_starttag p st t attrs).out = st.out ∧
    (handle_starttag p st t attrs).drop_content_stack = [lowerS t] ∧
    (handle_endtag p st t).out = st.out ++ ["</".data ++ lowerS t ++ ['>']] ∧
    sanitize_html (some "<script>x</script>ok") contradictoryPolicy = "ok" ∧
    sanitize_html (some "</script>") contradictoryPolicy = "</script>" := by
  refine ⟨?_, ?_, ?_, by rfl, by rfl⟩
  · simp [handle_starttag, hempty, hdrop]
  · simp [handle_starttag, hempty, hdrop]
  · simp [handle_endtag, hempty, hallow, emit_end, lowerS_idem]

/-- C8, witness for the amended theorem at the contradictory policy. -/
theorem c8_no_validation_witness :
    (handle_starttag contradictoryPolicy initState "script".data []).out = [] ∧
    (handle_starttag contradictoryPolicy initState "script".data
      []).drop_content_stack = [lowerS "script".data] ∧
    (handle_endtag contradictoryPolicy initState "script".data).out =
      [] ++ ["</".data ++ lowerS "script".data ++ ['>']] ∧
    sanitize_html (some "<script>x</script>ok") contradictoryPolicy = "ok" ∧
    sanitize_html (some "</script>") contradictoryPolicy = "</script>" :=
  c8_no_validation contradictoryPolicy initState "script".data []
    (by decide) (by decide) rfl

/-- C9: attribute filtering keeps the tag and drops only the offending
attributes: an attribute whose lower-cased key is not in the effective
allowed set is omitted, and a `class` attribute whose trimmed value is
empty or fails the class validator is omitted; the tag itself is still
emitted (concretely, under the default policy, `onclick` is dropped while
`class="ok"` survives, and an unsafe class is dropped while the `span`
is kept). -/
theorem c9_attribute_filtering :
    (∀ (allowed : List Str) (k : Str) (v : Str), lowerS k ∉ allowed →
      safeAttrChunk allowed (k, some v) = none) ∧
    (∀ (allowed : List Str) (v : Str), pyStrip v = [] ∨ classOk (pyStrip v) = false →
      safeAttrChunk allowed ("class".data, some v) = none) ∧
    sanitize_html (some "<div class=\"ok\" onclick=\"evil()\">t</div>")
      defaultPolicy = "<div class=\"ok\">t</div>" ∧
    sanitize_html (some "<span class=\"x;y\">t</span>") defaultPolicy =
      "<span>t</span>" := by
  refine ⟨?_, ?_, by rfl, by rfl⟩
  · intro allowed k v hk
    simp [safeAttrChunk, hk]
  · intro allowed v hv
    simp only [safeAttrChunk]
    split
    · by_cases h0 : pyStrip v = []
      · simp [h0]
        decide
      · rcases hv with hv | hv
        · exact absurd hv h0
        · simp [h0, hv]
          decide
    · rfl

/-- C9, witness: the disallowed `onclick` attribute is dropped. -/
theorem c9_attribute_filtering_witness :
    safeAttrChunk ["class".data] ("onclick".data, some "evil()".data) = none :=
  c9_attribute_filtering.1 ["class".data] "onclick".data "evil()".data (by decide)

/-- C10: in the Normal state, a tag that is neither allowed nor a
drop-content tag is unwrapped: both its start and end events leave the
state (output and drop stack) completely unchanged, so the children are
processed exactly as if the tag were absent; concretely
`sanitize("<marquee>hi</marquee>") = "hi"`. -/
theorem c10_unwrap (p : Policy) (st : SanState) (t : Str)
    (attrs : List (Str × Option Str))
    (hempty : st.drop_content_stack = [])
    (hnd : lowerS t ∉ DROP_CONTENT_TAGS)
    (hna : lowerS t ∉ p.allowed_tags) :
    handle_starttag p st t attrs = st ∧
    handle_endtag p st t = st ∧
    sanitize_html (some "<marquee>hi</marquee>") defaultPolicy = "hi" := by
  refine ⟨?_, ?_, by rfl⟩
  · simp [handle_starttag, hempty, hnd, hna]
  · simp [handle_endtag, hempty, hna]

/-- C10, witness at the concrete `marquee` tag. -/
theorem c10_unwrap_witness :
    handle_starttag defaultPolicy initState "marquee".data [] = initState ∧
    handle_endtag defaultPolicy initState "marquee".data = initState ∧
    sanitize_html (some "<marquee>hi</marquee>") defaultPolicy = "hi" :=
  c10_unwrap defaultPolicy initState "marquee".data [] rfl (by decide) (by decide)

/-- Escaped text never contains a raw `<`. -/
theorem lt_not_mem_escape (q : Bool) (d : Str) : '<' ∉ escape q d := by
  intro hmem
  unfold escape at hmem
  rw [List.mem_flatten] at hmem
  obtain ⟨l, hl, hcl⟩ := hmem
  rw [List.mem_map] at hl
  obtain ⟨c, _, rfl⟩ := hl
  unfold escChar at hcl
  split_ifs at hcl with h1 h2 h3 h4 h5
  · revert hcl; decide
  · revert hcl; decide
  · revert hcl; decide
  · revert hcl; decide
  · revert hcl; decide
  · rw [List.mem_singleton] at hcl
    exact h2 hcl.symm

/-- A character accepted by the class validator is none of the
markup-significant characters. -/
theorem classChar_ne {c : Char} (h : classChar c = true) :
    c ≠ '&' ∧ c ≠ '<' ∧ c ≠ '>' ∧ c ≠ '"' ∧ c ≠ Char.ofNat 39 ∧ c ≠ '=' := by
  refine ⟨?_, ?_, ?_, ?_, ?_, ?_⟩ <;> (rintro rfl; revert h; decide)

/-- `html.escape` is the identity on validated class values. -/
theorem escape_classOk_id {v : Str} (h : classOk v = true) : escape true v = v := by
  induction v with
  | nil => rfl
  | cons c v ih =>
    unfold classOk at h
    rw [List.all_cons, Bool.and_eq_true] at h
    obtain ⟨hne, _, _, h4, h5, _⟩ := classChar_ne h.1
    have hchunk : escChar true c = [c] := by
      unfold escChar
      rw [if_neg hne, if_neg (by assumption), if_neg (by assumption),
        if_neg (by simp [h4]), if_neg (by simp [h5])]
    unfold escape at ih ⊢
    rw [List.map_cons, List.flatten_cons, hchunk, ih h.2]
    rfl

/-- `Char.toLower` either fixes a character or yields a lowercase
letter. -/
theorem char_toLower_cases (c : Char) :
    c.toLower = c ∨ (97 ≤ c.toLower.toNat ∧ c.toLower.toNat ≤ 122) := by
  unfold Char.toLower
  by_cases h : c.toNat ≥ 65 ∧ c.toNat ≤ 90
  · right
    rw [if_pos h]
    have h2 : (Char.ofNat (c.toNat + 32)).toNat = c.toNat + 32 :=
      char_ofNat_toNat (by omega)
    omega
  · left
    rw [if_neg h]

/-- Lower-casing never introduces a `<`. -/
theorem lt_not_mem_lowerS {s : Str} (h : '<' ∉ s) : '<' ∉ lowerS s := by
  intro hmem
  unfold lowerS at hmem
  rw [List.mem_map] at hmem
  obtain ⟨c, hc, heq⟩ := hmem
  rcases char_toLower_cases c with h2 | h2
  · rw [h2] at heq
    exact h (heq ▸ hc)
  · rw [heq] at h2
    revert h2
    decide

/-- Every chunk `safeAttrChunk` emits starts with a space. -/
theorem safeAttrChunk_space {allowed : List Str} {kv : Str × Option Str} {ch : Str}
    (h : safeAttrChunk allowed kv = some ch) : SpaceChunk ch := by
  unfold safeAttrChunk at h
  split at h
  · exact absurd h (by simp)
  · split at h
    · split at h
      · split at h
        · exact absurd h (by simp)
        · split at h
          · cases h
            exact ⟨_, rfl⟩
          · exact absurd h (by simp)
      · cases h
        exact ⟨_, rfl⟩
    · exact absurd h (by simp)

/-- Under an attribute policy that only allows `class`, every emitted
chunk is a validated class chunk. -/
theorem safeAttrChunk_class {allowed : List Str} {kv : Str × Option Str} {ch : Str}
    (hall : ∀ k ∈ allowed, k = "class".data)
    (h : safeAttrChunk allowed kv = some ch) : ClassChunk ch := by
  unfold safeAttrChunk at h
  split at h
  · exact absurd h (by simp)
  · rename_i v heq2
    split at h
    · rename_i hmem
      have hk : lowerS kv.1 = "class".data := hall _ hmem
      rw [if_pos hk] at h
      split at h
      · exact absurd h (by simp)
      · split at h
        · rename_i hok
          cases h
          exact ⟨pyStrip v, by rw [escape_classOk_id hok], hok⟩
        · exact absurd h (by simp)
    · exact absurd h (by simp)

/-- A single event-processing step preserves the output-fragment shape
invariant, for any per-chunk property `C` that `safeAttrChunk` ensures. -/
theorem step_FragOK (p : Policy) (C : Str → Prop)
    (HC : ∀ (tag : Str) (kv : Str × Option Str) (ch : Str),
      safeAttrChunk (attrs_allowed_for p tag) kv = some ch → C ch)
    (st : SanState) (e : Event) (h : ∀ s ∈ st.out, FragOK p C s) :
    ∀ s ∈ (step p st e).out, FragOK p C s := by
  have hstart : ∀ (tag : Str) (attrs : List (Str × Option Str)),
      lowerS tag ∈ p.allowed_tags → FragOK p C (emit_start p (lowerS tag) attrs) := by
    intro tag attrs hmem
    refine Or.inr (Or.inl ⟨lowerS tag,
      attrs.filterMap (safeAttrChunk (attrs_allowed_for p (lowerS (lowerS tag)))),
      hmem, ?_, ?_⟩)
    · intro ch hch
      rw [List.mem_filterMap] at hch
      obtain ⟨kv, _, hkv⟩ := hch
      exact HC (lowerS (lowerS tag)) kv ch hkv
    · unfold emit_start
      rw [lowerS_idem]
      rfl
  have hend : ∀ tag : Str, ∀ s ∈ emit_end p (lowerS tag), FragOK p C s := by
    intro tag s hs
    unfold emit_end at hs
    rw [lowerS_idem] at hs
    split at hs
    · rename_i hmem
      rw [List.mem_singleton] at hs
      subst hs
      exact Or.inr (Or.inr ⟨lowerS tag, hmem, by rfl⟩)
    · exact absurd hs (by simp)
  cases e with
  | startTag name attrs =>
    simp only [step, handle_starttag]
    split
    · split
      · exact h
      · exact h
    · split
      · exact h
      · split
        · rename_i hne hnd hmem
          intro s hs
          rw [List.mem_append] at hs
          rcases hs with hs | hs
          · exact h s hs
          · rw [List.mem_singleton] at hs
            subst hs
            exact hstart name attrs hmem
        · exact h
  | endTag name =>
    simp only [step, handle_endtag]
    split
    · split
      · exact h
      · exact h
    · split
      · intro s hs
        rw [List.mem_append] at hs
        rcases hs with hs | hs
        · exact h s hs
        · exact hend name s hs
      · exact h
  | startEndTag name attrs =>
    simp only [step, handle_startendtag]
    split
    · exact h
    · split
      · exact h
      · split
        · split
          · rename_i hne hnd hmem hbr
            intro s hs
            rw [List.mem_append] at hs
            rcases hs with hs | hs
            · exact h s hs
            · rw [List.mem_singleton] at hs
              subst hs
              refine Or.inr (Or.inl ⟨"br".data, [], ?_, by simp, by rfl⟩)
              have hbr2 : lowerS name = "br".data := hbr
              exact hbr2 ▸ hmem
          · rename_i hne hnd hmem hbr
            intro s hs
            rw [List.mem_append, List.mem_append] at hs
            rcases hs with (hs | hs) | hs
            · exact h s hs
            · rw [List.mem_singleton] at hs
              subst hs
              exact hstart name attrs hmem
            · exact hend name s hs
        · exact h
  | text d =>
    simp only [step, handle_data]
    split
    · exact h
    · intro s hs
      rw [List.mem_append] at hs
      rcases hs with hs | hs
      · exact h s hs
      · rw [List.mem_singleton] at hs
        subst hs
        exact Or.inl (lt_not_mem_escape false d)
  | entityRef n =>
    simp only [step, handle_entityref]
    split
    · exact h
    · intro s hs
      rw [List.mem_append] at hs
      rcases hs with hs | hs
      · exact h s hs
      · rw [List.mem_singleton] at hs
        subst hs
        refine Or.inl ?_
        intro hmem
        rcases List.mem_cons.mp hmem with heq | hmem2
        · exact absurd heq (by decide)
        · rcases List.mem_append.mp hmem2 with hm | hm
          · exact lt_not_mem_escape true n hm
          · revert hm
            decide
  | charRef n =>
    simp only [step, handle_charref]
    split
    · exact h
    · intro s hs
      rw [List.mem_append] at hs
      rcases hs with hs | hs
      · exact h s hs
      · rw [List.mem_singleton] at hs
        subst hs
        refine Or.inl ?_
        intro hmem
        rcases List.mem_append.mp hmem with hm | hm
        · rcases List.mem_append.mp hm with hm2 | hm2
          · revert hm2
            decide
          · exact lt_not_mem_escape true n hm2
        · revert hm
          decide
  | comment d =>
    exact h

/-- Processing any event stream preserves the output-fragment shape
invariant. -/
theorem runEvents_FragOK (p : Policy) (C : Str → Prop)
    (HC : ∀ (tag : Str) (kv : Str × Option Str) (ch : Str),
      safeAttrChunk (attrs_allowed_for p tag) kv = some ch → C ch)
    (evs : List Event) :
    ∀ s ∈ (runEvents p evs).out, FragOK p C s := by
  have main : ∀ (evs : List Event) (st : SanState),
      (∀ s ∈ st.out, FragOK p C s) →
      ∀ s ∈ (evs.foldl (step p) st).out, FragOK p C s := by
    intro evs
    induction evs with
    | nil => intro st h; exact h
    | cons e evs ih =>
      intro st h
      rw [List.foldl_cons]
      exact ih (step p st e) (step_FragOK p C HC st e h)
  exact main evs initState (by simp [initState])

/-- `takeWhile` runs past a prefix all of whose elements satisfy the
predicate. -/
theorem takeWhile_all_append (p : Char → Bool) (a b : Str)
    (ha : ∀ x ∈ a, p x = true) :
    (a ++ b).takeWhile p = a ++ b.takeWhile p := by
  induction a with
  | nil => rfl
  | cons c a ih =>
    rw [List.cons_append, List.takeWhile_cons, if_pos (ha c (by simp)),
      List.cons_append, ih (fun x hx => ha x (by simp [hx]))]

/-- `outFragTag` on an end-tag fragment. -/
theorem outFragTag_end (x : Str) :
    outFragTag ('<' :: '/' :: x) = some (x.takeWhile tagNameChar) := rfl

/-- `outFragTag` on a start-tag fragment. -/
theorem outFragTag_start (c : Char) (x : Str) (hc : c ≠ '/') :
    outFragTag ('<' :: c :: x) = some ((c :: x).takeWhile tagNameChar) := by
  unfold outFragTag
  split
  · rename_i heq
    rw [List.cons.injEq, List.cons.injEq] at heq
    exact absurd heq.2.1 hc
  · rename_i heq
    rw [List.cons.injEq] at heq
    rw [heq.2]
  · rename_i hne1 hne2
    exact absurd rfl (hne2 (c :: x))

/-- In a fragment satisfying the shape invariant, the extracted tag name
is an allowed tag (for policies whose tag names are made of tag-name
characters). -/
theorem fragOK_outFragTag (p : Policy) (C : Str → Prop)
    (hC : ∀ ch, C ch → SpaceChunk ch)
    (hvalid : ∀ t ∈ p.allowed_tags, t.all tagNameChar = true)
    {s : Str} (hfrag : FragOK p C s) {t : Str} (ht : outFragTag s = some t) :
    t ∈ p.allowed_tags := by
  rcases hfrag with hlt | ⟨t0, chunks, hmem, hchunks, rfl⟩ | ⟨t0, hmem, rfl⟩
  · exfalso
    unfold outFragTag at ht
    split at ht
    · exact hlt (by simp)
    · exact hlt (by simp)
    · exact absurd ht (by simp)
  · have hstop : (chunks.flatten ++ ['>']).takeWhile tagNameChar = [] := by
      cases hch : chunks with
      | nil => simp [List.takeWhile_cons, tagNameChar]
      | cons ch chs =>
        obtain ⟨w, hw⟩ := hC ch (hchunks ch (by simp [hch]))
        subst hw
        simp only [List.flatten_cons, List.cons_append, List.append_assoc]
        rw [List.takeWhile_cons, if_neg (by decide)]
    have hall : ∀ x ∈ t0, tagNameChar x = true := by
      intro x hx
      have := hvalid t0 hmem
      rw [List.all_eq_true] at this
      exact this x hx
    cases ht0 : t0 with
    | nil =>
      subst ht0
      cases hch : chunks with
      | nil =>
        subst hch
        simp only [List.nil_append, List.flatten_nil] at ht ⊢
        rw [outFragTag_start '>' [] (by decide)] at ht
        simp [List.takeWhile_cons, tagNameChar] at ht
        subst ht
        exact hmem
      | cons ch chs =>
        obtain ⟨w, hw⟩ := hC ch (hchunks ch (by simp [hch]))
        subst hch hw
        simp only [List.nil_append, List.flatten_cons, List.cons_append] at ht ⊢
        rw [outFragTag_start ' ' _ (by decide)] at ht
        rw [List.takeWhile_cons, if_neg (by decide)] at ht
        cases ht
        exact hmem
    | cons c0 t0' =>
      subst ht0
      have hc0 : tagNameChar c0 = true := hall c0 (by simp)
      have hc0ne : c0 ≠ '/' := by
        intro heq
        rw [heq] at hc0
        revert hc0
        decide
      simp only [List.cons_append] at ht
      rw [outFragTag_start c0 _ hc0ne] at ht
      have h4 : c0 :: ((t0' ++ chunks.flatten) ++ ['>']) =
          (c0 :: t0') ++ (chunks.flatten ++ ['>']) := by
        simp [List.append_assoc]
      have h3 := takeWhile_all_append tagNameChar (c0 :: t0')
        (chunks.flatten ++ ['>']) hall
      rw [hstop, List.append_nil] at h3
      rw [h4, h3] at ht
      cases ht
      exact hmem
  · rw [outFragTag_end] at ht
    have hall : ∀ x ∈ t0, tagNameChar x = true := by
      intro x hx
      have := hvalid t0 hmem
      rw [List.all_eq_true] at this
      exact this x hx
    rw [takeWhile_all_append tagNameChar t0 ['>'] hall] at ht
    simp only [List.takeWhile_cons, tagNameChar] at ht
    simp at ht
    subst ht
    simpa using hmem

/-- C2: every tag name appearing in the output buffer of
`sanitize(x, p)` is a member of `p.allowed_tags` (for a policy whose tag
names are lower-case, as the data model requires, and are made of
tag-name characters); equivalently, the output-buffer shape invariant is
preserved by every event-processing step. -/
theorem c2_allowlist_containment (p : Policy) (x : String)
    (hlow : ∀ t ∈ p.allowed_tags, lowerS t = t)
    (hvalid : ∀ t ∈ p.allowed_tags, t.all tagNameChar = true) :
    (∀ s ∈ (runEvents (lowerPolicy p) (tokenize x.data)).out,
      ∀ t, outFragTag s = some t → t ∈ p.allowed_tags) ∧
    (∀ (st : SanState) (e : Event),
      (∀ s ∈ st.out, FragOK (lowerPolicy p) SpaceChunk s) →
      ∀ s ∈ (step (lowerPolicy p) st e).out, FragOK (lowerPolicy p) SpaceChunk s) := by
  have htags : (lowerPolicy p).allowed_tags = p.allowed_tags := by
    show p.allowed_tags.map lowerS = p.allowed_tags
    rw [List.map_congr_left hlow]
    exact List.map_id _
  have hspace : ∀ (tag : Str) (kv : Str × Option Str) (ch : Str),
      safeAttrChunk (attrs_allowed_for (lowerPolicy p) tag) kv = some ch →
      SpaceChunk ch := fun _ _ _ h => safeAttrChunk_space h
  constructor
  · intro s hs t ht
    have hfrag := runEvents_FragOK (lowerPolicy p) SpaceChunk hspace
      (tokenize x.data) s hs
    have := fragOK_outFragTag (lowerPolicy p) SpaceChunk (fun _ h => h)
      (by rw [htags]; exact hvalid) hfrag ht
    rw [htags] at this
    exact this
  · intro st e h
    exact step_FragOK (lowerPolicy p) SpaceChunk hspace st e h

/-- C2, witness at the default policy on a concrete input. -/
theorem c2_allowlist_containment_witness :
    "div".data ∈ defaultPolicy.allowed_tags :=
  (c2_allowlist_containment defaultPolicy "<div>hi</div>"
    (by decide) (by decide)).1
    "<div>".data (by decide) "div".data (by decide)

/-- A suffix of `s ++ M` is a suffix of `s` extended by `M`, or a suffix
of `M`. -/
theorem suffix_append_cases {t s M : Str} (h : t <:+ (s ++ M)) :
    (∃ t', t' <:+ s ∧ t = t' ++ M) ∨ t <:+ M := by
  induction s with
  | nil => exact Or.inr (by simpa using h)
  | cons c s ih =>
    obtain ⟨u, hu⟩ := h
    cases u with
    | nil =>
      left
      refine ⟨c :: s, List.suffix_refl _, ?_⟩
      simp only [List.nil_append] at hu
      rw [hu, List.cons_append]
    | cons a u' =>
      obtain ⟨h1, h2⟩ := List.cons_eq_cons.mp hu
      rcases ih ⟨u', h2⟩ with ⟨t', ht's, rfl⟩ | hM
      · exact Or.inl ⟨t', ht's.trans (List.suffix_cons c s), rfl⟩
      · exact Or.inr hM

/-- The only suffix of `'<' :: body` that starts with `<` is the whole
list, when `body` itself is `<`-free. -/
theorem suffix_lt_head {body t'' : Str} (hbody : '<' ∉ body)
    (h : ('<' :: t'') <:+ ('<' :: body)) : t'' = body := by
  obtain ⟨u, hu⟩ := h
  cases u with
  | nil => simpa using hu
  | cons a u' =>
    rw [List.cons_append, List.cons.injEq] at hu
    exfalso
    apply hbody
    have hsuf : ('<' :: t'') <:+ body := ⟨u', hu.2⟩
    exact hsuf.subset (by simp)

/-- If no fragment lets the pattern tail start right after one of its
`<`s, the pattern `'<' :: q` is not an infix of the flattened output. -/
theorem no_pattern_infix (q : Str) (outs : List Str)
    (hblocks : ∀ s ∈ outs, '<' ∉ s ∨
      ∃ body, s = '<' :: body ∧ '<' ∉ body ∧ ∀ r, ¬ (q <+: (body ++ r))) :
    ¬ (('<' :: q) <:+: outs.flatten) := by
  intro hinf
  rw [List.infix_iff_prefix_suffix] at hinf
  obtain ⟨t, hpre, hsuf⟩ := hinf
  induction outs generalizing t with
  | nil =>
    rw [List.flatten_nil, List.suffix_nil] at hsuf
    subst hsuf
    simp at hpre
  | cons s rest ih =>
    rw [List.flatten_cons] at hsuf
    rcases suffix_append_cases hsuf with ⟨t', ht's, rfl⟩ | hM
    · cases t' with
      | nil =>
        exact ih (fun s hs => hblocks s (by simp [hs])) _ hpre
          (by simpa using List.suffix_refl _)
      | cons c t'' =>
        rw [List.cons_append, List.cons_prefix_cons] at hpre
        obtain ⟨hc, hq⟩ := hpre
        subst hc
        rcases hblocks s (by simp) with hlt | ⟨body, rfl, hbody, hblock⟩
        · exact hlt (ht's.subset (by simp))
        · have := suffix_lt_head hbody ht's
          subst this
          exact hblock _ hq
    · exact ih (fun s hs => hblocks s (by simp [hs])) _ hpre hM

/-- A mismatch between the pattern and the fragment within their common
length blocks any prefix match, whatever follows the fragment. -/
theorem zip_mismatch_blocks {q t : Str}
    (h : (q.zip t).any (fun pr => !(pr.1 = pr.2)) = true) :
    ∀ X, ¬ (q <+: (t ++ X)) := by
  induction q generalizing t with
  | nil => simp [List.zip] at h
  | cons a q' ih =>
    cases t with
    | nil => simp [List.zip] at h
    | cons b t' =>
      intro X hpre
      rw [List.cons_append, List.cons_prefix_cons] at hpre
      obtain ⟨hab, hq⟩ := hpre
      subst hab
      rw [List.zip_cons_cons, List.any_cons] at h
      simp only [decide_eq_true_eq] at h
      rcases Bool.or_eq_true_iff.mp h with h1 | h1
      · simp at h1
      · exact ih h1 X hq

/-- A pattern that continues the tag name with a character other than
space or `>` cannot match a start-tag body, whose tag name is followed by
an attribute chunk (starting with a space) or the closing `>`. -/
theorem after_tag_blocks (t : Str) (d : Char) (q'' : Str)
    (chunks : List Str) (hsp : ∀ ch ∈ chunks, SpaceChunk ch)
    (hd1 : d ≠ ' ') (hd2 : d ≠ '>') :
    ∀ r, ¬ ((t ++ d :: q'') <+: ((t ++ chunks.flatten ++ ['>']) ++ r)) := by
  intro r hpre
  rw [List.append_assoc, List.append_assoc] at hpre
  have h2 := (List.prefix_append_right_inj t).mp hpre
  cases hch : chunks with
  | nil =>
    subst hch
    simp only [List.flatten_nil, List.nil_append, List.singleton_append] at h2
    rw [List.cons_prefix_cons] at h2
    exact hd2 h2.1
  | cons ch chs =>
    obtain ⟨w, hw⟩ := hsp ch (by simp [hch])
    subst hch hw
    simp only [List.flatten_cons, List.cons_append, List.append_assoc] at h2
    rw [List.cons_prefix_cons] at h2
    exact hd1 h2.1

/-- Default allowed tags are already lower-case. -/
theorem default_tags_fix : ∀ t ∈ DEFAULT_ALLOWED_TAGS, lowerS t = t := by decide

/-- Default allowed tags contain no `<`. -/
theorem default_tags_no_lt : ∀ t ∈ DEFAULT_ALLOWED_TAGS, '<' ∉ t := by decide

/-- A validated class value contains no `<`. -/
theorem classOk_no_lt {v : Str} (h : classOk v = true) : '<' ∉ v := by
  intro hmem
  unfold classOk at h
  rw [List.all_eq_true] at h
  have := (classChar_ne (h '<' hmem)).2.1
  exact this rfl

/-- Lower-casing a class chunk: still a space-headed, `<`-free chunk. -/
theorem classChunk_lower {ch : Str} (h : ClassChunk ch) :
    SpaceChunk (lowerS ch) ∧ '<' ∉ lowerS ch := by
  obtain ⟨v, rfl, hok⟩ := h
  constructor
  · exact ⟨_, rfl⟩
  · unfold lowerS
    rw [List.map_append, List.map_append]
    intro hmem
    rcases List.mem_append.mp hmem with hm | hm
    · rcases List.mem_append.mp hm with hm2 | hm2
      · revert hm2
        decide
      · exact lt_not_mem_lowerS (classOk_no_lt hok) hm2
    · revert hm
      decide

/-- Mismatch or a blocked continuation: the pattern tail cannot match a
start-tag body. -/
theorem start_body_blocks (q t : Str) (chunks : List Str)
    (hsp : ∀ ch ∈ chunks, SpaceChunk ch)
    (hcase : (q.zip t).any (fun pr => !(pr.1 = pr.2)) = true ∨
      ∃ (d : Char) (q'' : Str), q = t ++ d :: q'' ∧ d ≠ ' ' ∧ d ≠ '>') :
    ∀ r, ¬ (q <+: ((t ++ chunks.flatten ++ ['>']) ++ r)) := by
  rcases hcase with h | ⟨d, q'', rfl, hd1, hd2⟩
  · intro r hpre
    rw [List.append_assoc, List.append_assoc] at hpre
    exact zip_mismatch_blocks h _ hpre
  · exact after_tag_blocks t d q'' chunks hsp hd1 hd2

/-- Every output fragment under the default policy, lower-cased, blocks
the three dangerous patterns `script`, `style`, `iframe` after any of its
`<` characters. -/
theorem lowered_frag_blocks (s : Str)
    (hfrag : FragOK defaultPolicy ClassChunk s) (q : Str)
    (hq : q = "script".data ∨ q = "style".data ∨ q = "iframe".data) :
    '<' ∉ lowerS s ∨
    ∃ body, lowerS s = '<' :: body ∧ '<' ∉ body ∧
      ∀ r, ¬ (q <+: (body ++ r)) := by
  rcases hfrag with hlt | ⟨t, chunks, hmem, hchunks, rfl⟩ | ⟨t, hmem, rfl⟩
  · exact Or.inl (lt_not_mem_lowerS hlt)
  · right
    have hfix : lowerS t = t := default_tags_fix t hmem
    have hshape : lowerS ('<' :: (t ++ chunks.flatten ++ ['>'])) =
        '<' :: (t ++ (chunks.map lowerS).flatten ++ ['>']) := by
      unfold lowerS
      rw [List.map_cons, List.map_append, List.map_append, List.map_flatten]
      have h1 : Char.toLower '<' = '<' := by decide
      have h2 : List.map Char.toLower ['>'] = ['>'] := by decide
      rw [h1, h2]
      have h3 : List.map Char.toLower t = t := hfix
      rw [h3]
    refine ⟨t ++ (chunks.map lowerS).flatten ++ ['>'], hshape, ?_, ?_⟩
    · intro hmem2
      rcases List.mem_append.mp hmem2 with hm | hm
      · rcases List.mem_append.mp hm with hm2 | hm2
        · exact default_tags_no_lt t hmem hm2
        · rw [List.mem_flatten] at hm2
          obtain ⟨ch', hch', hmem3⟩ := hm2
          rw [List.mem_map] at hch'
          obtain ⟨ch, hch, rfl⟩ := hch'
          exact (classChunk_lower (hchunks ch hch)).2 hmem3
      · revert hm
        decide
    · have hsp : ∀ ch' ∈ chunks.map lowerS, SpaceChunk ch' := by
        intro ch' hch'
        rw [List.mem_map] at hch'
        obtain ⟨ch, hch, rfl⟩ := hch'
        exact (classChunk_lower (hchunks ch hch)).1
      have hmem' : t = "div".data ∨ t = "span".data ∨ t = "b".data ∨
          t = "strong".data ∨ t = "i".data ∨ t = "em".data ∨
          t = "code".data ∨ t = "pre".data ∨ t = "ul".data ∨
          t = "ol".data ∨ t = "li".data ∨ t = "br".data := by
        simpa [defaultPolicy, DEFAULT_ALLOWED_TAGS] using hmem
      rcases hq with rfl | rfl | rfl <;>
        rcases hmem' with rfl | rfl | rfl | rfl | rfl | rfl | rfl | rfl |
          rfl | rfl | rfl | rfl <;>
        (apply start_body_blocks _ _ _ hsp
         first
          | exact Or.inl (by decide)
          | exact Or.inr ⟨'f', "rame".data, by decide, by decide, by decide⟩)
  · right
    have hfix : lowerS t = t := default_tags_fix t hmem
    have hshape : lowerS ('<' :: '/' :: (t ++ ['>'])) =
        '<' :: '/' :: (t ++ ['>']) := by
      unfold lowerS
      rw [List.map_cons, List.map_cons, List.map_append]
      have h1 : Char.toLower '<' = '<' := by decide
      have h2 : Char.toLower '/' = '/' := by decide
      have h3 : List.map Char.toLower ['>'] = ['>'] := by decide
      rw [h1, h2, h3]
      have h4 : List.map Char.toLower t = t := hfix
      rw [h4]
    refine ⟨'/' :: (t ++ ['>']), hshape, ?_, ?_⟩
    · intro hmem2
      rcases List.mem_cons.mp hmem2 with heq | hm
      · exact absurd heq (by decide)
      · rcases List.mem_append.mp hm with hm2 | hm2
        · exact default_tags_no_lt t hmem hm2
        · revert hm2
          decide
    · intro r hpre
      have : ('/' :: (t ++ ['>'])) ++ r = ['/'] ++ ((t ++ ['>']) ++ r) := by
        simp
      rw [this] at hpre
      rcases hq with rfl | rfl | rfl <;>
        exact zip_mismatch_blocks (by decide) _ hpre

/-- Under the default policy, the effective allowed-attribute set of any
tag contains only `class`. -/
theorem default_attrs_all_class (tag : Str) :
    ∀ k ∈ attrs_allowed_for defaultPolicy tag, k = "class".data := by
  intro k hk
  unfold attrs_allowed_for at hk
  rcases List.mem_append.mp hk with h | h
  · have he : alGet defaultPolicy.allowed_attrs "*".data = ["class".data] := rfl
    rw [he] at h
    simpa using h
  · unfold alGet at h
    split at h
    · rename_i kv hfind
      have hkv := List.mem_of_find?_eq_some hfind
      have : kv = ("*".data, ["class".data]) := by
        simpa [defaultPolicy, DEFAULT_ALLOWED_ATTRS] using hkv
      subst this
      simpa using h
    · simp at h

/-- C1, safety under the default policy: for every input string, the
lower-cased output of `sanitize_html` contains none of the substrings
`<script`, `<style`, `<iframe`; moreover every fragment of the output
buffer satisfies the shape invariant `FragOK defaultPolicy ClassChunk`
(so every attribute ever emitted is a validated `class` attribute — in
particular no attribute whose name begins with `on` — since `class` does
not begin with `on`). -/
theorem c1_safety (x : String) :
    ¬ ("<script".data <:+: lowerS (sanitize_html (some x) defaultPolicy).data) ∧
    ¬ ("<style".data <:+: lowerS (sanitize_html (some x) defaultPolicy).data) ∧
    ¬ ("<iframe".data <:+: lowerS (sanitize_html (some x) defaultPolicy).data) ∧
    (∀ s ∈ (runEvents defaultPolicy (tokenize x.data)).out,
      FragOK defaultPolicy ClassChunk s) ∧
    "on".data.isPrefixOf "class".data = false := by
  have hlp : lowerPolicy defaultPolicy = defaultPolicy := by decide
  have hclass : ∀ (tag : Str) (kv : Str × Option Str) (ch : Str),
      safeAttrChunk (attrs_allowed_for defaultPolicy tag) kv = some ch →
      ClassChunk ch :=
    fun tag kv ch h => safeAttrChunk_class (default_attrs_all_class tag) h
  have hinv : ∀ s ∈ (runEvents defaultPolicy (tokenize x.data)).out,
      FragOK defaultPolicy ClassChunk s :=
    runEvents_FragOK defaultPolicy ClassChunk hclass (tokenize x.data)
  have hdata : (sanitize_html (some x) defaultPolicy).data =
      ((runEvents defaultPolicy (tokenize x.data)).out).flatten := by
    show (sanitize_html (some x) defaultPolicy).data = _
    unfold sanitize_html
    rw [hlp]
    rfl
  have hlowflat : lowerS (sanitize_html (some x) defaultPolicy).data =
      (((runEvents defaultPolicy (tokenize x.data)).out).map lowerS).flatten := by
    rw [hdata]
    exact List.map_flatten _ _
  have hmain : ∀ q : Str,
      (q = "script".data ∨ q = "style".data ∨ q = "iframe".data) →
      ¬ (('<' :: q) <:+: lowerS (sanitize_html (some x) defaultPolicy).data) := by
    intro q hq
    rw [hlowflat]
    apply no_pattern_infix
    intro s' hs'
    rw [List.mem_map] at hs'
    obtain ⟨s, hs, rfl⟩ := hs'
    exact lowered_frag_blocks s (hinv s hs) q hq
  refine ⟨?_, ?_, ?_, hinv, by decide⟩
  · exact hmain "script".data (Or.inl rfl)
  · exact hmain "style".data (Or.inr (Or.inl rfl))
  · exact hmain "iframe".data (Or.inr (Or.inr rfl))

/-- C1, witness: the invariant conjunct instantiated at a concrete run. -/
theorem c1_safety_witness :
    FragOK defaultPolicy ClassChunk "<div>".data :=
  (c1_safety "<div>hi</div>").2.2.2.1 "<div>".data (by decide)

/-- Any two sufficient fuels give the tokenizer loop the same events. -/
theorem tokGo_fuel : ∀ {fuel fuel' : Nat} {m : TkMode} {l : Str},
    l.length < fuel → l.length < fuel' → tokGo fuel m l = tokGo fuel' m l := by
  intro fuel
  induction fuel with
  | zero => intro fuel' m l h h'; omega
  | succ fuel ih =>
    intro fuel' m l h h'
    cases l with
    | nil =>
      cases fuel' with
      | zero => omega
      | succ f' => cases m <;> rfl
    | cons c r =>
      cases fuel' with
      | zero => omega
      | succ f' =>
        simp only [List.length_cons] at h h'
        cases m with
        | cdata t =>
          show tokGo (fuel + 1) (.cdata t) (c :: r) = tokGo (f' + 1) (.cdata t) (c :: r)
          unfold tokGo
          split
          · rename_i hpre
            have hd : ((c :: r).drop (2 + t.length)).length ≤ r.length := by
              rw [List.length_drop]
              simp only [List.length_cons]
              omega
            split
            · rename_i rest heq
              have hrest : rest.length ≤ r.length := by
                have h1 := dropWhile_len_le isPySpace ((c :: r).drop (2 + t.length))
                rw [heq] at h1
                simp only [List.length_cons] at h1
                omega
              rw [@ih f' .normal rest (by omega) (by omega)]
            · rw [@ih f' (.cdata t) ((c :: r).drop (2 + t.length)) (by omega) (by omega)]
          · rw [@ih f' (.cdata t) r (by omega) (by omega)]
        | normal =>
          show tokGo (fuel + 1) .normal (c :: r) = tokGo (f' + 1) .normal (c :: r)
          unfold tokGo
          by_cases hc : c = '<'
          · rw [if_pos hc, if_pos hc]
            cases hp : parseLt r with
            | some v =>
              obtain ⟨e, m', rest⟩ := v
              have := parseLt_length hp
              dsimp only
              rw [@ih f' m' rest (by omega) (by omega)]
            | none =>
              dsimp only
              rw [@ih f' .normal r (by omega) (by omega)]
          · rw [if_neg hc, if_neg hc]
            by_cases ha : c = '&'
            · rw [if_pos ha, if_pos ha]
              cases hp : parseAmp r with
              | some v =>
                obtain ⟨e, rest⟩ := v
                have := parseAmp_length hp
                dsimp only
                rw [@ih f' .normal rest (by omega) (by omega)]
              | none =>
                dsimp only
                rw [@ih f' .normal r (by omega) (by omega)]
            · rw [if_neg ha, if_neg ha]
              rw [@ih f' .normal r (by omega) (by omega)]

/-- Characters with equal code points are equal. -/
theorem char_toNat_inj {c d : Char} (h : c.toNat = d.toNat) : c = d := by
  apply Char.ext
  unfold Char.toNat at h
  exact UInt32.ext h

/-- Every character `Char.toLower` can produce that differs from its
input is a plain lower-case letter, and those satisfy the tokenizer
character classes. -/
theorem lower_range_classes : ∀ n, 97 ≤ n → n ≤ 122 →
    (Char.ofNat n).isAlpha = true ∧ tagNameChar (Char.ofNat n) = true ∧
    attrNameChar (Char.ofNat n) = true := by
  intro n h1 h2
  interval_cases n <;> exact ⟨by decide, by decide, by decide⟩

/-- `Char.toLower` preserves being a letter. -/
theorem toLower_isAlpha {c : Char} (h : c.isAlpha = true) :
    c.toLower.isAlpha = true := by
  rcases char_toLower_cases c with h2 | h2
  · rw [h2]; exact h
  · have h3 : c.toLower = Char.ofNat c.toLower.toNat :=
      (char_toNat_inj (char_ofNat_toNat (by omega)).symm)
    rw [h3]
    exact (lower_range_classes c.toLower.toNat h2.1 h2.2).1

/-- `Char.toLower` preserves the tag-name character class. -/
theorem toLower_tagNameChar {c : Char} (h : tagNameChar c = true) :
    tagNameChar c.toLower = true := by
  rcases char_toLower_cases c with h2 | h2
  · rw [h2]; exact h
  · have h3 : c.toLower = Char.ofNat c.toLower.toNat :=
      (char_toNat_inj (char_ofNat_toNat (by omega)).symm)
    rw [h3]
    exact (lower_range_classes c.toLower.toNat h2.1 h2.2).2.1

/-- `Char.toLower` preserves the attribute-name character class. -/
theorem toLower_attrNameChar {c : Char} (h : attrNameChar c = true) :
    attrNameChar c.toLower = true := by
  rcases char_toLower_cases c with h2 | h2
  · rw [h2]; exact h
  · have h3 : c.toLower = Char.ofNat c.toLower.toNat :=
      (char_toNat_inj (char_ofNat_toNat (by omega)).symm)
    rw [h3]
    exact (lower_range_classes c.toLower.toNat h2.1 h2.2).2.2

/-- A letter is a tag-name character. -/
theorem alpha_tagNameChar {c : Char} (hc : c.isAlpha = true) :
    tagNameChar c = true := by
  have h1 : c ≠ ' ' := fun he => absurd (he ▸ hc) (by decide)
  have h2 : c ≠ '\t' := fun he => absurd (he ▸ hc) (by decide)
  have h3 : c ≠ '\n' := fun he => absurd (he ▸ hc) (by decide)
  have h4 : c ≠ '\r' := fun he => absurd (he ▸ hc) (by decide)
  have h5 : c ≠ Char.ofNat 11 := fun he => absurd (he ▸ hc) (by decide)
  have h6 : c ≠ Char.ofNat 12 := fun he => absurd (he ▸ hc) (by decide)
  have h7 : c ≠ '/' := fun he => absurd (he ▸ hc) (by decide)
  have h8 : c ≠ '>' := fun he => absurd (he ▸ hc) (by decide)
  unfold tagNameChar isPySpace
  simp [h1, h2, h3, h4, h5, h6, h7, h8]

/-- The lower-cased tag name the tokenizer builds from a letter-headed
span of tag-name characters is a valid lower-case tag name. -/
theorem validTagLow_of_parse {c : Char} {r : Str} (hc : c.isAlpha = true) :
    ValidTagLow (lowerS ((c :: r).takeWhile tagNameChar)) := by
  have hc2 : tagNameChar c = true := alpha_tagNameChar hc
  rw [List.takeWhile_cons, if_pos hc2]
  refine ⟨by simp [lowerS], ?_, ?_, lowerS_idem _⟩
  · intro d hd
    simp only [lowerS, List.map_cons, List.take_succ_cons, List.take_zero,
      List.mem_singleton] at hd
    subst hd
    exact toLower_isAlpha hc
  · simp only [lowerS, List.map_cons, List.all_cons, Bool.and_eq_true]
    refine ⟨toLower_tagNameChar hc2, ?_⟩
    rw [List.all_eq_true]
    intro d hd
    rw [List.mem_map] at hd
    obtain ⟨d0, hd0, rfl⟩ := hd
    exact toLower_tagNameChar (List.mem_takeWhile_imp hd0)

/-- Entity-name characters include the letters. -/
theorem alpha_entNameChar {c : Char} (hc : c.isAlpha = true) :
    entNameChar c = true := by
  unfold entNameChar
  rw [hc]
  rfl

/-- A digit is not `x` or `X`. -/
theorem digit_ne_x {c : Char} (hc : c.isDigit = true) : c ≠ 'x' ∧ c ≠ 'X' :=
  ⟨fun he => absurd (he ▸ hc) (by decide),
   fun he => absurd (he ▸ hc) (by decide)⟩

/-- Attribute keys produced by `parseAttrs` are valid. -/
theorem parseAttrs_valid : ∀ {fuel : Nat} {l : Str}
    {attrs : List (Str × Option Str)} {sc : Bool} {r : Str},
    parseAttrs fuel l = some (attrs, sc, r) → ∀ kv ∈ attrs, ValidAttrKey kv.1 := by
  intro fuel
  induction fuel with
  | zero =>
    intro l attrs sc r h
    match l with
    | [] => simp [parseAttrs] at h
    | c :: rest => simp [parseAttrs] at h
  | succ fuel ih =>
    intro l attrs sc r h
    match l with
    | [] => simp [parseAttrs] at h
    | c :: rest =>
      unfold parseAttrs at h
      split at h
      · cases h
        simp
      · split at h
        · cases h
          simp
        · split at h
          · exact ih h
          · split at h
            · exact ih h
            · split at h
              case isTrue hattr =>
                split at h
                · rename_i as' sc' r' hrec
                  cases h
                  intro kv hkv
                  rcases List.mem_cons.mp hkv with rfl | hkv2
                  · show ValidAttrKey ((c :: rest).takeWhile attrNameChar)
                    rw [List.takeWhile_cons, if_pos hattr]
                    refine ⟨by simp, ?_⟩
                    rw [List.all_cons, Bool.and_eq_true]
                    refine ⟨hattr, ?_⟩
                    rw [List.all_eq_true]
                    intro d hd
                    exact List.mem_takeWhile_imp hd
                  · exact ih hrec kv hkv2
                · exact absurd h (by simp)
              case isFalse hattr => exact ih h

/-- Events produced by `parseEndTag` are valid. -/
theorem parseEndTag_valid {l : Str} {e : Event} {r : Str}
    (h : parseEndTag l = some (e, r)) : ValidEvent e := by
  unfold parseEndTag at h
  split at h
  · rename_i c hh
    split at h
    · rename_i ha
      split at h
      · rename_i a' r' hg
        cases h
        have hcons : l.dropWhile isPySpace = c :: (l.dropWhile isPySpace).tail := by
          cases hd : l.dropWhile isPySpace with
          | nil => rw [hd] at hh; simp at hh
          | cons x xs => rw [hd] at hh; simp at hh; subst hh; rfl
        rw [hcons]
        exact validTagLow_of_parse ha
      · exact absurd h (by simp)
    · exact absurd h (by simp)
  · exact absurd h (by simp)

/-- Events produced by `parseLt` are valid and so is the returned mode. -/
theorem parseLt_valid {l : Str} {e : Event} {m : TkMode} {r : Str}
    (h : parseLt l = some (e, m, r)) : ValidEvent e ∧ ValidMode m := by
  unfold parseLt at h
  split at h
  · exact absurd h (by simp)
  · rename_i r0
    split at h
    · rename_i e' rest hp
      cases h
      exact ⟨parseEndTag_valid hp, trivial⟩
    · split at h
      · cases h
        exact ⟨trivial, trivial⟩
      · exact absurd h (by simp)
  · rename_i r0
    split at h
    · split at h
      · cases h
        exact ⟨trivial, trivial⟩
      · cases h
        exact ⟨trivial, trivial⟩
    · split at h
      · cases h
        exact ⟨trivial, trivial⟩
      · exact absurd h (by simp)
  · rename_i r0
    split at h
    · cases h
      exact ⟨trivial, trivial⟩
    · exact absurd h (by simp)
  · rename_i c r0 hne1 hne2 hne3
    split at h
    · rename_i ha
      split at h
      · rename_i attrs sc rest hp
        have hv : ValidTagLow (lowerS ((c :: r0).takeWhile tagNameChar)) :=
          validTagLow_of_parse ha
        have hattrs := parseAttrs_valid hp
        split at h
        · cases h
          exact ⟨⟨hv, hattrs⟩, trivial⟩
        · split at h
          · cases h
            exact ⟨⟨hv, hattrs⟩, hv⟩
          · cases h
            exact ⟨⟨hv, hattrs⟩, trivial⟩
      · exact absurd h (by simp)
    · exact absurd h (by simp)

/-- Events produced by `parseAmp` are valid. -/
theorem parseAmp_valid {l : Str} {e : Event} {r : Str}
    (h : parseAmp l = some (e, r)) : ValidEvent e := by
  unfold parseAmp at h
  split at h
  · exact absurd h (by simp)
  · rename_i r0
    split at h
    · exact absurd h (by simp)
    · rename_i c r2
      split at h
      · rename_i hx
        split at h
        · exact absurd h (by simp)
        · rename_i hne
          cases h
          rw [not_or] at hne
          refine Or.inr ⟨c, r2.takeWhile hexDigitB, rfl, hx, hne.1, ?_⟩
          rw [List.all_eq_true]
          intro d hd
          exact List.mem_takeWhile_imp hd
      · rename_i hx
        split at h
        · exact absurd h (by simp)
        · rename_i hne
          cases h
          rw [not_or] at hne
          refine Or.inl ⟨hne.1, ?_, ?_⟩
          · rw [List.all_eq_true]
            intro d hd
            exact List.mem_takeWhile_imp hd
          · intro d hd
            have hdig : d.isDigit = true := by
              have := List.take_subset 1 ((c :: r2).takeWhile Char.isDigit)
              exact List.mem_takeWhile_imp (this hd)
            exact digit_ne_x hdig
  · rename_i c r0 hne1
    split at h
    · rename_i ha
      split at h
      · exact absurd h (by simp)
      · rename_i hne
        cases h
        have hc2 : entNameChar c = true := alpha_entNameChar ha
        rw [List.takeWhile_cons, if_pos hc2]
        refine ⟨by simp, ?_, ?_⟩
        · intro d hd
          simp only [List.take_succ_cons, List.take_zero,
            List.mem_singleton] at hd
          subst hd
          exact ha
        · rw [List.all_cons, Bool.and_eq_true]
          refine ⟨hc2, ?_⟩
          rw [List.all_eq_true]
          intro d hd
          exact List.mem_takeWhile_imp hd
    · exact absurd h (by simp)

/-- All events the tokenizer produces are valid. -/
theorem tokGo_valid : ∀ (fuel : Nat) (m : TkMode) (l : Str), ValidMode m →
    ∀ e ∈ tokGo fuel m l, ValidEvent e := by
  intro fuel
  induction fuel with
  | zero => intro m l hm e he; simp [tokGo] at he
  | succ fuel ih =>
    intro m l hm e he
    cases l with
    | nil => cases m <;> simp [tokGo] at he
    | cons c r =>
      cases m with
      | cdata t =>
        unfold tokGo at he
        split at he
        · split at he
          · rcases List.mem_cons.mp he with rfl | he2
            · exact hm
            · exact ih .normal _ trivial e he2
          · rcases List.mem_cons.mp he with rfl | he2
            · trivial
            · exact ih (.cdata t) _ hm e he2
        · rcases List.mem_cons.mp he with rfl | he2
          · trivial
          · exact ih (.cdata t) _ hm e he2
      | normal =>
        unfold tokGo at he
        split at he
        · split at he
          · rename_i e' m' rest hp
            rcases List.mem_cons.mp he with rfl | he2
            · exact (parseLt_valid hp).1
            · exact ih m' _ (parseLt_valid hp).2 e he2
          · rcases List.mem_cons.mp he with rfl | he2
            · trivial
            · exact ih .normal _ trivial e he2
        · split at he
          · split at he
            · rename_i e' rest hp
              rcases List.mem_cons.mp he with rfl | he2
              · exact parseAmp_valid hp
              · exact ih .normal _ trivial e he2
            · rcases List.mem_cons.mp he with rfl | he2
              · trivial
              · exact ih .normal _ trivial e he2
          · rcases List.mem_cons.mp he with rfl | he2
            · trivial
            · exact ih .normal _ trivial e he2

/-- `escChar` leaves a character alone iff it is not markup-significant. -/
theorem escChar_self {q : Bool} {c : Char} (h1 : c ≠ '&') (h2 : c ≠ '<')
    (h3 : c ≠ '>') (h4 : c ≠ '"') (h5 : c ≠ Char.ofNat 39) :
    escChar q c = [c] := by
  unfold escChar
  rw [if_neg h1, if_neg h2, if_neg h3, if_neg (by simp [h4]),
    if_neg (by simp [h5])]

/-- `escape` is the identity on strings of non-markup characters. -/
theorem escape_eq_self {q : Bool} {s : Str}
    (h : ∀ c ∈ s, escChar q c = [c]) : escape q s = s := by
  induction s with
  | nil => rfl
  | cons c s ih =>
    unfold escape at ih ⊢
    rw [List.map_cons, List.flatten_cons, h c (by simp),
      ih (fun d hd => h d (by simp [hd]))]
    rfl

/-- Entity-name characters are not markup-significant. -/
theorem entNameChar_escChar {q : Bool} {c : Char} (h : entNameChar c = true) :
    escChar q c = [c] := by
  refine escChar_self ?_ ?_ ?_ ?_ ?_ <;> (rintro rfl; revert h; decide)

/-- Decimal digits are not markup-significant. -/
theorem digit_escChar {q : Bool} {c : Char} (h : c.isDigit = true) :
    escChar q c = [c] := by
  refine escChar_self ?_ ?_ ?_ ?_ ?_ <;> (rintro rfl; revert h; decide)

/-- Hexadecimal digits are not markup-significant. -/
theorem hex_escChar {q : Bool} {c : Char} (h : hexDigitB c = true) :
    escChar q c = [c] := by
  refine escChar_self ?_ ?_ ?_ ?_ ?_ <;> (rintro rfl; revert h; decide)

/-- `escape` is the identity on entity names. -/
theorem escape_entName {n : Str} (h : EntName n) : escape true n = n := by
  refine escape_eq_self ?_
  intro c hc
  have := h.2.2
  rw [List.all_eq_true] at this
  exact entNameChar_escChar (this c hc)

/-- `escape` is the identity on character-reference names. -/
theorem escape_refName {n : Str} (h : RefName n) : escape true n = n := by
  refine escape_eq_self ?_
  intro c hc
  rcases h with ⟨_, hall, _⟩ | ⟨x, ds, rfl, hx, _, hall⟩
  · rw [List.all_eq_true] at hall
    exact digit_escChar (hall c hc)
  · rcases List.mem_cons.mp hc with rfl | hc2
    · rcases hx with rfl | rfl
      · refine escChar_self ?_ ?_ ?_ ?_ ?_ <;> decide
      · refine escChar_self ?_ ?_ ?_ ?_ ?_ <;> decide
    · rw [List.all_eq_true] at hall
      exact hex_escChar (hall c hc2)

/-- Escaped character data is in the sanitized-text language. -/
theorem sanText_escape (d : Str) : SanText (escape false d) := by
  induction d with
  | nil => exact SanText.nil
  | cons c d ih =>
    show SanText ((escChar false c ++ escape false d))
    by_cases h1 : c = '&'
    · subst h1
      exact SanText.amp _ ih
    · by_cases h2 : c = '<'
      · subst h2
        exact SanText.lt _ ih
      · by_cases h3 : c = '>'
        · subst h3
          exact SanText.gt _ ih
        · have : escChar false c = [c] := by
            unfold escChar
            rw [if_neg h1, if_neg h2, if_neg h3, if_neg (by simp),
              if_neg (by simp)]
          rw [this]
          exact SanText.safe c _ ⟨h1, h2, h3⟩ ih

/-- `dropWhile` is idempotent. -/
theorem dropWhile_dropWhile (p : Char → Bool) (l : Str) :
    (l.dropWhile p).dropWhile p = l.dropWhile p := by
  induction l with
  | nil => rfl
  | cons c l ih =>
    rw [List.dropWhile_cons]
    split
    · exact ih
    · rename_i hp
      rw [List.dropWhile_cons, if_neg hp]

/-- The head of a `dropWhile` result does not satisfy the predicate. -/
theorem dropWhile_head_not {p : Char → Bool} {l : Str} {c : Char} {r : Str}
    (h : l.dropWhile p = c :: r) : p c = false := by
  induction l with
  | nil => simp at h
  | cons a l ih =>
    rw [List.dropWhile_cons] at h
    split at h
    · exact ih h
    · rename_i hp
      cases h
      exact Bool.not_eq_true _ ▸ (by simpa using hp)

/-- A list whose head fails the predicate is fixed by `dropWhile`. -/
theorem dropWhile_eq_self_of_head {p : Char → Bool} {l : Str}
    (h : ∀ c r, l = c :: r → p c = false) : l.dropWhile p = l := by
  cases l with
  | nil => rfl
  | cons c r => rw [List.dropWhile_cons, if_neg (by simp [h c r rfl])]

/-- Python `str.strip` is idempotent. -/
theorem pyStrip_pyStrip (v : Str) : pyStrip (pyStrip v) = pyStrip v := by
  unfold pyStrip
  have hBB : ((((v.dropWhile isPySpace).reverse.dropWhile
      isPySpace).reverse).dropWhile isPySpace) =
      (((v.dropWhile isPySpace).reverse.dropWhile isPySpace).reverse) := by
    apply dropWhile_eq_self_of_head
    intro c r heq
    have hX : ((v.dropWhile isPySpace).reverse.dropWhile isPySpace) <:+
        (v.dropWhile isPySpace).reverse := List.dropWhile_suffix _
    have hpre : ((v.dropWhile isPySpace).reverse.dropWhile
        isPySpace).reverse <+: v.dropWhile isPySpace := by
      have h2 := List.reverse_prefix.mpr hX
      simpa using h2
    rw [heq] at hpre
    obtain ⟨t, ht⟩ := hpre
    rw [List.cons_append] at ht
    exact dropWhile_head_not ht.symm
  rw [hBB, List.reverse_reverse, dropWhile_dropWhile]

/-- Every chunk `safeAttrChunk` emits from a valid attribute pair is a
sanitized chunk. -/
theorem safeAttrChunk_sanChunk {p : Policy} {t : Str} {kv : Str × Option Str}
    {ch : Str} (hkv : ValidAttrKey kv.1)
    (h : safeAttrChunk (attrs_allowed_for p t) kv = some ch) :
    SanChunk p t ch := by
  unfold safeAttrChunk at h
  split at h
  · exact absurd h (by simp)
  · rename_i v heq2
    split at h
    · rename_i hmem
      split at h
      · rename_i hcl
        split at h
        · exact absurd h (by simp)
        · split at h
          · rename_i hne hok
            cases h
            refine Or.inl ⟨pyStrip v, ?_, hok, hne, pyStrip_pyStrip v, ?_⟩
            · rw [escape_classOk_id hok]
            · rw [← hcl]
              exact hmem
          · exact absurd h (by simp)
      · rename_i hcl
        cases h
        refine Or.inr ⟨lowerS kv.1, v, ?_, hmem, hcl, ?_, lowerS_idem _⟩
        · simp
        · constructor
          · simp [lowerS]
            exact hkv.1
          · have := hkv.2
            rw [List.all_eq_true] at this ⊢
            intro d hd
            unfold lowerS at hd
            rw [List.mem_map] at hd
            obtain ⟨d0, hd0, rfl⟩ := hd
            exact toLower_attrNameChar (this d0 hd0)
    · exact absurd h (by simp)

/-- A single valid event preserves the sanitized-fragment invariant. -/
theorem step_SanFrag (p : Policy) (st : SanState) (e : Event)
    (he : ValidEvent e) (h : ∀ s ∈ st.out, SanFrag p s) :
    ∀ s ∈ (step p st e).out, SanFrag p s := by
  have hstart : ∀ (name : Str) (attrs : List (Str × Option Str)),
      ValidTagLow name → (∀ kv ∈ attrs, ValidAttrKey kv.1) →
      lowerS name ∉ DROP_CONTENT_TAGS → lowerS name ∈ p.allowed_tags →
      SanFrag p (emit_start p (lowerS name) attrs) := by
    intro name attrs hv hattrs hnd hmem
    have hfix : lowerS name = name := hv.2.2.2
    refine Or.inr (Or.inr (Or.inr (Or.inl ⟨lowerS name,
      attrs.filterMap (safeAttrChunk (attrs_allowed_for p (lowerS (lowerS name)))),
      ?_, ?_, hmem, hnd, ?_⟩)))
    · unfold emit_start
      rw [lowerS_idem]
      rfl
    · rw [hfix]
      exact hv
    · intro ch hch
      rw [List.mem_filterMap] at hch
      obtain ⟨kv, hkv, hsome⟩ := hch
      rw [lowerS_idem] at hsome
      have := safeAttrChunk_sanChunk (hattrs kv hkv) hsome
      rw [hfix] at this ⊢
      exact this
  have hend : ∀ name : Str, ValidTagLow name →
      ∀ s ∈ emit_end p (lowerS name), SanFrag p s := by
    intro name hv s hs
    unfold emit_end at hs
    rw [lowerS_idem] at hs
    split at hs
    · rename_i hmem
      rw [List.mem_singleton] at hs
      subst hs
      refine Or.inr (Or.inr (Or.inr (Or.inr ⟨lowerS name, by rfl, ?_, hmem⟩)))
      rw [hv.2.2.2]
      exact hv
    · exact absurd hs (by simp)
  cases e with
  | startTag name attrs =>
    simp only [step, handle_starttag]
    split
    · split
      · exact h
      · exact h
    · split
      · exact h
      · split
        · rename_i hne hnd hmem
          intro s hs
          rw [List.mem_append] at hs
          rcases hs with hs | hs
          · exact h s hs
          · rw [List.mem_singleton] at hs
            subst hs
            exact hstart name attrs he.1 he.2 hnd hmem
        · exact h
  | endTag name =>
    simp only [step, handle_endtag]
    split
    · split
      · exact h
      · exact h
    · split
      · intro s hs
        rw [List.mem_append] at hs
        rcases hs with hs | hs
        · exact h s hs
        · exact hend name he s hs
      · exact h
  | startEndTag name attrs =>
    simp only [step, handle_startendtag]
    split
    · exact h
    · split
      · exact h
      · split
        · split
          · rename_i hne hnd hmem hbr
            intro s hs
            rw [List.mem_append] at hs
            rcases hs with hs | hs
            · exact h s hs
            · rw [List.mem_singleton] at hs
              subst hs
              refine Or.inr (Or.inr (Or.inr (Or.inl ⟨"br".data, [],
                by rfl, ⟨by decide, by decide, by decide, by decide⟩, ?_,
                by decide, by simp⟩)))
              have hbr2 : lowerS name = "br".data := hbr
              exact hbr2 ▸ hmem
          · rename_i hne hnd hmem hbr
            intro s hs
            rw [List.mem_append, List.mem_append] at hs
            rcases hs with (hs | hs) | hs
            · exact h s hs
            · rw [List.mem_singleton] at hs
              subst hs
              exact hstart name attrs he.1 he.2 hnd hmem
            · exact hend name he.1 s hs
        · exact h
  | text d =>
    simp only [step, handle_data]
    split
    · exact h
    · intro s hs
      rw [List.mem_append] at hs
      rcases hs with hs | hs
      · exact h s hs
      · rw [List.mem_singleton] at hs
        subst hs
        exact Or.inl (sanText_escape d)
  | entityRef n =>
    simp only [step, handle_entityref]
    split
    · exact h
    · intro s hs
      rw [List.mem_append] at hs
      rcases hs with hs | hs
      · exact h s hs
      · rw [List.mem_singleton] at hs
        subst hs
        refine Or.inr (Or.inl ⟨n, ?_, he⟩)
        rw [escape_entName he]
        simp
  | charRef n =>
    simp only [step, handle_charref]
    split
    · exact h
    · intro s hs
      rw [List.mem_append] at hs
      rcases hs with hs | hs
      · exact h s hs
      · rw [List.mem_singleton] at hs
        subst hs
        refine Or.inr (Or.inr (Or.inl ⟨n, ?_, he⟩))
        rw [escape_refName he]
        simp
  | comment d =>
    exact h

/-- Running the machine over valid events yields sanitized fragments. -/
theorem runEvents_SanFrag (p : Policy) (evs : List Event)
    (hv : ∀ e ∈ evs, ValidEvent e) :
    ∀ s ∈ (runEvents p evs).out, SanFrag p s := by
  have main : ∀ (evs : List Event) (st : SanState),
      (∀ e ∈ evs, ValidEvent e) → (∀ s ∈ st.out, SanFrag p s) →
      ∀ s ∈ (evs.foldl (step p) st).out, SanFrag p s := by
    intro evs
    induction evs with
    | nil => intro st _ h; exact h
    | cons e evs ih =>
      intro st hv h
      rw [List.foldl_cons]
      exact ih (step p st e) (fun e' he' => hv e' (by simp [he']))
        (step_SanFrag p st e (hv e (by simp)) h)
  exact main evs initState hv (by simp [initState])

/-- `attrUnescape` passes a non-`&` head through. -/
theorem attrUnescape_cons_ne {c : Char} (l : Str) (hc : c ≠ '&') :
    attrUnescape (c :: l) = c :: attrUnescape l := by
  rw [attrUnescape.eq_def]
  split
  · rename_i heq
    exact absurd heq (by simp)
  · rename_i heq
    exact absurd (List.cons_eq_cons.mp heq).1 hc
  · rename_i heq
    exact absurd (List.cons_eq_cons.mp heq).1 hc
  · rename_i heq
    exact absurd (List.cons_eq_cons.mp heq).1 hc
  · rename_i heq
    exact absurd (List.cons_eq_cons.mp heq).1 hc
  · rename_i heq
    exact absurd (List.cons_eq_cons.mp heq).1 hc
  · rename_i heq
    obtain ⟨h1, h2⟩ := List.cons_eq_cons.mp heq
    rw [h1, h2]

set_option maxHeartbeats 1000000 in
/-- `attrUnescape` step on the `amp` reference. -/
theorem attrUnescape_amp (l : Str) :
    attrUnescape ('&' :: 'a' :: 'm' :: 'p' :: ';' :: l) = '&' :: attrUnescape l := rfl

set_option maxHeartbeats 1000000 in
/-- `attrUnescape` step on the `lt` reference. -/
theorem attrUnescape_lt (l : Str) :
    attrUnescape ('&' :: 'l' :: 't' :: ';' :: l) = '<' :: attrUnescape l := rfl

set_option maxHeartbeats 1000000 in
/-- `attrUnescape` step on the `gt` reference. -/
theorem attrUnescape_gt (l : Str) :
    attrUnescape ('&' :: 'g' :: 't' :: ';' :: l) = '>' :: attrUnescape l := rfl

set_option maxHeartbeats 1000000 in
/-- `attrUnescape` step on the `quot` reference. -/
theorem attrUnescape_quot (l : Str) :
    attrUnescape ('&' :: 'q' :: 'u' :: 'o' :: 't' :: ';' :: l) =
      '"' :: attrUnescape l := rfl

set_option maxHeartbeats 1000000 in
/-- `attrUnescape` step on the `#x27` reference. -/
theorem attrUnescape_x27 (l : Str) :
    attrUnescape ('&' :: '#' :: 'x' :: '2' :: '7' :: ';' :: l) =
      Char.ofNat 39 :: attrUnescape l := rfl

/-- `attrUnescape` is the identity on `&`-free strings. -/
theorem attrUnescape_no_amp : ∀ {l : Str}, '&' ∉ l → attrUnescape l = l := by
  intro l
  induction l with
  | nil => intro _; rfl
  | cons c l ih =>
    intro h
    have hc : c ≠ '&' := fun he => h (he ▸ List.mem_cons_self c l)
    rw [attrUnescape_cons_ne l hc, ih (fun hm => h (List.mem_cons_of_mem c hm))]

/-- `attrUnescape` inverts `escape true`. -/
theorem attrUnescape_escape : ∀ (v : Str), attrUnescape (escape true v) = v := by
  intro v
  induction v with
  | nil => rfl
  | cons c v ih =>
    show attrUnescape (escChar true c ++ escape true v) = c :: v
    by_cases h1 : c = '&'
    · subst h1
      show attrUnescape ('&' :: 'a' :: 'm' :: 'p' :: ';' :: escape true v) = _
      rw [attrUnescape_amp, ih]
    · by_cases h2 : c = '<'
      · subst h2
        show attrUnescape ('&' :: 'l' :: 't' :: ';' :: escape true v) = _
        rw [attrUnescape_lt, ih]
      · by_cases h3 : c = '>'
        · subst h3
          show attrUnescape ('&' :: 'g' :: 't' :: ';' :: escape true v) = _
          rw [attrUnescape_gt, ih]
        · by_cases h4 : c = '"'
          · subst h4
            show attrUnescape ('&' :: 'q' :: 'u' :: 'o' :: 't' :: ';' ::
              escape true v) = _
            rw [attrUnescape_quot, ih]
          · by_cases h5 : c = Char.ofNat 39
            · subst h5
              show attrUnescape ('&' :: '#' :: 'x' :: '2' :: '7' :: ';' ::
                escape true v) = _
              rw [attrUnescape_x27, ih]
            · rw [escChar_self h1 h2 h3 h4 h5, List.singleton_append,
                attrUnescape_cons_ne _ h1, ih]

/-- `escape true` never emits a raw double quote. -/
theorem quot_not_mem_escape (v : Str) : '"' ∉ escape true v := by
  intro hmem
  unfold escape at hmem
  rw [List.mem_flatten] at hmem
  obtain ⟨l, hl, hcl⟩ := hmem
  rw [List.mem_map] at hl
  obtain ⟨c, _, rfl⟩ := hl
  unfold escChar at hcl
  split_ifs at hcl with h1 h2 h3 h4 h5
  · revert hcl; decide
  · revert hcl; decide
  · revert hcl; decide
  · revert hcl; decide
  · revert hcl; decide
  · rw [List.mem_singleton] at hcl
    have h4b : c ≠ '"' := by simpa using h4
    exact h4b hcl.symm

/-- `dropWhile` runs past a prefix all of whose elements satisfy the
predicate. -/
theorem dropWhile_all_append (p : Char → Bool) (a b : Str)
    (ha : ∀ x ∈ a, p x = true) :
    (a ++ b).dropWhile p = b.dropWhile p := by
  induction a with
  | nil => rfl
  | cons c a ih =>
    rw [List.cons_append, List.dropWhile_cons, if_pos (ha c (by simp)),
      ih (fun x hx => ha x (by simp [hx]))]

/-- One step of the machine from the Normal state on a non-drop event:
the stack stays empty and the event's contribution is appended. -/
theorem step_emitN (p : Policy) (st : SanState) (e : Event)
    (hst : st.drop_content_stack = []) (he : NonDropEvent e) :
    step p st e = ⟨st.out ++ emitN p e, []⟩ := by
  obtain ⟨out0, stk⟩ := st
  simp only at hst
  subst hst
  cases e with
  | startTag name attrs =>
    have hnd : lowerS name ∉ DROP_CONTENT_TAGS := he
    simp only [step, handle_starttag, emitN]
    rw [if_neg (by simp), if_neg hnd, if_neg hnd]
    split <;> simp
  | endTag name =>
    simp only [step, handle_endtag, emitN]
    split <;> simp
  | startEndTag name attrs =>
    simp only [step, handle_startendtag, emitN]
    rw [if_neg (by simp)]
    split
    · simp
    · split
      · split <;> simp
      · simp
  | text d => simp [step, handle_data, emitN]
  | entityRef n => simp [step, handle_entityref, emitN]
  | charRef n => simp [step, handle_charref, emitN]
  | comment d => simp [step, emitN]

/-- Feeding non-drop events from the Normal state appends their
contributions in order. -/
theorem foldl_emitN (p : Policy) : ∀ (evs : List Event) (st : SanState),
    st.drop_content_stack = [] → (∀ e ∈ evs, NonDropEvent e) →
    evs.foldl (step p) st = ⟨st.out ++ evs.flatMap (emitN p), []⟩ := by
  intro evs
  induction evs with
  | nil =>
    intro st hst _
    simp only [List.foldl_nil, List.flatMap_nil, List.append_nil]
    cases st
    simp at hst
    rw [hst]
  | cons e evs ih =>
    intro st hst hnd
    rw [List.foldl_cons, step_emitN p st e hst (hnd e (by simp)),
      ih _ rfl (fun e' he' => hnd e' (by simp [he']))]
    simp

/-- A letter is not one of the markup trigger characters. -/
theorem alpha_ne_marks {c : Char} (hc : c.isAlpha = true) :
    c ≠ '#' ∧ c ≠ '/' ∧ c ≠ '!' ∧ c ≠ '?' ∧ c ≠ ';' :=
  ⟨fun he => absurd (he ▸ hc) (by decide), fun he => absurd (he ▸ hc) (by decide),
   fun he => absurd (he ▸ hc) (by decide), fun he => absurd (he ▸ hc) (by decide),
   fun he => absurd (he ▸ hc) (by decide)⟩

/-- A validated class value contains no ampersand and no quote. -/
theorem classOk_no_amp_quot {v : Str} (h : classOk v = true) :
    '&' ∉ v ∧ '"' ∉ v := by
  unfold classOk at h
  rw [List.all_eq_true] at h
  constructor
  · intro hmem
    exact (classChar_ne (h '&' hmem)).1 rfl
  · intro hmem
    exact (classChar_ne (h '"' hmem)).2.2.2.1 rfl

/-- `parseAmp` recognises a well-formed named reference followed by a
semicolon. -/
theorem parseAmp_entity (n X : Str) (hn : EntName n) :
    parseAmp (n ++ ';' :: X) = some (.entityRef n, X) := by
  obtain ⟨hne, hhead, hall⟩ := hn
  cases n with
  | nil => exact absurd rfl hne
  | cons c cs =>
    have hc : c.isAlpha = true := hhead c (by simp)
    rw [List.all_eq_true] at hall
    rw [List.cons_append, parseAmp.eq_def]
    split
    · rename_i heq
      exact absurd heq (by simp)
    · rename_i r0 heq
      obtain ⟨h1, _⟩ := List.cons_eq_cons.mp heq
      exact absurd h1 (alpha_ne_marks hc).1
    · rename_i c0 r0 hne0 heq
      obtain ⟨h1, h2⟩ := List.cons_eq_cons.mp heq
      subst h1
      subst h2
      rw [if_pos hc]
      have hdrop : (c :: (cs ++ ';' :: X)).dropWhile entNameChar = ';' :: X := by
        rw [show c :: (cs ++ ';' :: X) = (c :: cs) ++ ';' :: X by simp,
          dropWhile_all_append entNameChar (c :: cs) (';' :: X)
            (fun x hx => hall x hx),
          List.dropWhile_cons, if_neg (by decide)]
      have htake : (c :: (cs ++ ';' :: X)).takeWhile entNameChar = c :: cs := by
        rw [show c :: (cs ++ ';' :: X) = (c :: cs) ++ ';' :: X by simp,
          takeWhile_all_append entNameChar (c :: cs) (';' :: X)
            (fun x hx => hall x hx),
          List.takeWhile_cons, if_neg (by decide), List.append_nil]
      rw [hdrop, htake]
      simp

/-- `parseAmp` recognises a decimal character reference followed by a
semicolon. -/
theorem parseAmp_dec (n X : Str) (hne : n ≠ []) (hall : n.all Char.isDigit = true)
    (hx : ∀ c ∈ n.take 1, c ≠ 'x' ∧ c ≠ 'X') :
    parseAmp ('#' :: (n ++ ';' :: X)) = some (.charRef n, X) := by
  cases n with
  | nil => exact absurd rfl hne
  | cons c cs =>
    rw [List.all_cons, Bool.and_eq_true] at hall
    have hcx := hx c (by simp)
    have htake : (c :: (cs ++ ';' :: X)).takeWhile Char.isDigit = c :: cs := by
      rw [show c :: (cs ++ ';' :: X) = (c :: cs) ++ ';' :: X by simp,
        takeWhile_all_append Char.isDigit (c :: cs) (';' :: X)
          (by rw [← List.all_eq_true, List.all_cons, Bool.and_eq_true]
              exact hall),
        List.takeWhile_cons, if_neg (by decide), List.append_nil]
    have hdrop : (c :: (cs ++ ';' :: X)).dropWhile Char.isDigit = ';' :: X := by
      rw [show c :: (cs ++ ';' :: X) = (c :: cs) ++ ';' :: X by simp,
        dropWhile_all_append Char.isDigit (c :: cs) (';' :: X)
          (by rw [← List.all_eq_true, List.all_cons, Bool.and_eq_true]
              exact hall),
        List.dropWhile_cons, if_neg (by decide)]
    rw [List.cons_append, parseAmp.eq_def]
    split
    · rename_i heq
      exact absurd heq (by simp)
    · rename_i r0 heq
      obtain ⟨_, h2⟩ := List.cons_eq_cons.mp heq
      subst h2
      split
      · rename_i heq2
        exact absurd heq2 (by simp)
      · rename_i c2 r2 heq2
        obtain ⟨hc2, hr2⟩ := List.cons_eq_cons.mp heq2
        subst hc2
        subst hr2
        rw [if_neg (by simp [hcx.1, hcx.2]), htake, hdrop]
        rw [if_neg (by simp)]
        simp
    · rename_i hno heq
      exact absurd (List.cons_eq_cons.mp heq).1.symm hno

/-- `parseAmp` recognises a hexadecimal character reference followed by a
semicolon. -/
theorem parseAmp_hex (x : Char) (ds X : Str) (hx : x = 'x' ∨ x = 'X')
    (hne : ds ≠ []) (hall : ds.all hexDigitB = true) :
    parseAmp ('#' :: x :: (ds ++ ';' :: X)) = some (.charRef (x :: ds), X) := by
  have htake : (ds ++ ';' :: X).takeWhile hexDigitB = ds := by
    rw [takeWhile_all_append hexDigitB ds (';' :: X)
        (by rw [← List.all_eq_true]; exact hall),
      List.takeWhile_cons, if_neg (by decide), List.append_nil]
  have hdrop : (ds ++ ';' :: X).dropWhile hexDigitB = ';' :: X := by
    rw [dropWhile_all_append hexDigitB ds (';' :: X)
        (by rw [← List.all_eq_true]; exact hall),
      List.dropWhile_cons, if_neg (by decide)]
  rw [parseAmp.eq_def]
  split
  · rename_i heq
    exact absurd heq (by simp)
  · rename_i r0 heq
    obtain ⟨_, h2⟩ := List.cons_eq_cons.mp heq
    subst h2
    split
    · rename_i heq2
      exact absurd heq2 (by simp)
    · rename_i c2 r2 heq2
      obtain ⟨hc2, hr2⟩ := List.cons_eq_cons.mp heq2
      subst hc2
      subst hr2
      rw [if_pos hx, htake, hdrop]
      rw [if_neg (by simp [hne])]
      simp
  · rename_i hno heq
    exact absurd (List.cons_eq_cons.mp heq).1.symm hno

/-- Definitional unfolding of `parseAttrs` on a cons cell. -/
theorem parseAttrs_cons (fuel : Nat) (c : Char) (rest : Str) :
    parseAttrs (fuel + 1) (c :: rest) =
      if c = '>' then some ([], false, rest)
      else if c = '/' ∧ rest.head? = some '>' then some ([], true, rest.tail)
      else if c = '/' then parseAttrs fuel rest
      else if isPySpace c then parseAttrs fuel rest
      else if attrNameChar c then
        match parseAttrs fuel (parseOneAttr c rest).2 with
        | some (as, sc, r) => some ((parseOneAttr c rest).1 :: as, sc, r)
        | none => none
      else parseAttrs fuel rest := rfl

/-- An attribute-name character is none of the delimiter characters. -/
theorem attrNameChar_ne {c : Char} (h : attrNameChar c = true) :
    isPySpace c = false ∧ c ≠ '/' ∧ c ≠ '>' ∧ c ≠ '=' ∧ c ≠ '"' := by
  refine ⟨?_, ?_, ?_, ?_, ?_⟩
  · cases hws : isPySpace c with
    | false => rfl
    | true =>
      unfold attrNameChar at h
      rw [hws] at h
      simp at h
  · intro he
    rw [he] at h
    exact absurd h (by decide)
  · intro he
    rw [he] at h
    exact absurd h (by decide)
  · intro he
    rw [he] at h
    exact absurd h (by decide)
  · intro he
    rw [he] at h
    exact absurd h (by decide)

/-- `parseAttrValue` on `="v"` with no quote inside `v` yields the
unescaped value and the input after the closing quote. -/
theorem parseAttrValue_eq (ev Y : Str) (hqev : '"' ∉ ev) :
    parseAttrValue ('=' :: '"' :: (ev ++ '"' :: Y)) =
      (some (attrUnescape ev), Y) := by
  unfold parseAttrValue
  rw [List.dropWhile_cons, if_neg (by decide)]
  split
  · rename_i r1 heq
    obtain ⟨-, hr1⟩ := List.cons_eq_cons.mp heq
    subst hr1
    rw [List.dropWhile_cons, if_neg (by decide)]
    split
    · rename_i q r3 heq2
      obtain ⟨hqe, hr3⟩ := List.cons_eq_cons.mp heq2
      subst hr3
      rw [← hqe]
      rw [if_pos (Or.inl rfl)]
      have htakev : (ev ++ '"' :: Y).takeWhile (fun x => !(x = '"')) = ev := by
        rw [takeWhile_all_append _ ev _
            (fun x hx => by simp; exact fun he => hqev (he ▸ hx)),
          List.takeWhile_cons, if_neg (by simp), List.append_nil]
      have hdropv : (ev ++ '"' :: Y).dropWhile (fun x => !(x = '"')) =
          '"' :: Y := by
        rw [dropWhile_all_append _ ev _
            (fun x hx => by simp; exact fun he => hqev (he ▸ hx)),
          List.dropWhile_cons, if_neg (by simp)]
      rw [htakev, hdropv]
      rfl
    · rename_i heq2
      exact absurd heq2 (by simp)
  · rename_i h
    exact absurd rfl (h _)

/-- Every sanitized chunk parses back to an attribute pair that
`safeAttrChunk` maps to the very same chunk. -/
theorem sanChunk_shape {p : Policy} {t ch : Str} (h : SanChunk p t ch) :
    ∃ (k ev : Str),
      ch = ' ' :: (k ++ '=' :: '"' :: (ev ++ ['"'])) ∧
      k ≠ [] ∧ k.all attrNameChar = true ∧ '"' ∉ ev ∧
      safeAttrChunk (attrs_allowed_for p t) (k, some (attrUnescape ev)) = some ch := by
  rcases h with ⟨v2, rfl, hok, hne, hstrip, hmem⟩ | ⟨k, v, rfl, hmem, hncl, hkv, hfix⟩
  · refine ⟨"class".data, v2, by simp, by decide, by decide,
      (classOk_no_amp_quot hok).2, ?_⟩
    rw [attrUnescape_no_amp (classOk_no_amp_quot hok).1]
    unfold safeAttrChunk
    have hcl : lowerS "class".data = "class".data := by decide
    simp only [hcl]
    rw [if_pos hmem, if_pos trivial, hstrip, if_neg hne, if_pos hok,
      escape_classOk_id hok]
  · refine ⟨k, escape true v, by simp, hkv.1, hkv.2, quot_not_mem_escape v, ?_⟩
    rw [attrUnescape_escape]
    unfold safeAttrChunk
    simp only [hfix]
    rw [if_pos hmem, if_neg hncl]
    simp

/-- `parseAttrs` consumes a run of sanitized chunks followed by `>`,
returning attributes that re-emit exactly those chunks. -/
theorem parseAttrs_chunks {p : Policy} {t : Str} :
    ∀ (chunks : List Str), (∀ ch ∈ chunks, SanChunk p t ch) →
    ∀ (rest : Str) (fuel : Nat),
      (chunks.flatten ++ '>' :: rest).length ≤ fuel →
      ∃ attrs, parseAttrs fuel (chunks.flatten ++ '>' :: rest) =
          some (attrs, false, rest) ∧
        attrs.filterMap (safeAttrChunk (attrs_allowed_for p t)) = chunks := by
  intro chunks
  induction chunks with
  | nil =>
    intro _ rest fuel hf
    refine ⟨[], ?_, rfl⟩
    simp only [List.flatten_nil, List.nil_append] at hf ⊢
    match fuel, hf with
    | fuel + 1, _ =>
      rw [parseAttrs_cons, if_pos rfl]
  | cons ch chs ih =>
    intro hch rest fuel hf
    obtain ⟨k, ev, hshape, hkne, hkall, hqev, hsafe⟩ :=
      sanChunk_shape (hch ch (by simp))
    obtain ⟨attrs', hp', hfm'⟩ := ih (fun c hc => hch c (by simp [hc])) rest
      ((chs.flatten ++ '>' :: rest).length) (le_refl _)
    rw [List.all_eq_true] at hkall
    cases k with
    | nil => exact absurd rfl hkne
    | cons k0 k' =>
    have hk0 := attrNameChar_ne (hkall k0 (by simp))
    subst hshape
    have hlen : (((' ' :: (k0 :: k' ++ '=' :: '"' :: (ev ++ ['"']))) ::
        chs).flatten ++ '>' :: rest).length =
        (k0 :: k' ++ '=' :: '"' :: (ev ++ ['"'])).length + 1 +
        (chs.flatten ++ '>' :: rest).length := by
      simp
      omega
    match fuel, hf with
    | fuel + 1, hf =>
      have hbody : ((' ' :: (k0 :: k' ++ '=' :: '"' :: (ev ++ ['"']))) ::
          chs).flatten ++ '>' :: rest =
          ' ' :: ((k0 :: k' ++ '=' :: '"' :: (ev ++ ['"'])) ++
            (chs.flatten ++ '>' :: rest)) := by
        simp
      rw [hbody, parseAttrs_cons]
      rw [if_neg (by decide), if_neg (by simp), if_neg (by decide),
        if_pos (by decide)]
      match fuel, (by
        rw [hbody] at hf
        simp only [List.length_cons] at hf
        omega : ((k0 :: k' ++ '=' :: '"' :: (ev ++ ['"'])) ++
          (chs.flatten ++ '>' :: rest)).length ≤ fuel) with
      | fuel + 1, hf2 =>
        have harg : (k0 :: k' ++ '=' :: '"' :: (ev ++ ['"'])) ++
            (chs.flatten ++ '>' :: rest) =
            k0 :: ((k' ++ '=' :: '"' :: (ev ++ ['"'])) ++
              (chs.flatten ++ '>' :: rest)) := by
          simp
        rw [harg, parseAttrs_cons]
        rw [if_neg (by simp [hk0.2.2.1]), if_neg (by simp [hk0.2.1]),
          if_neg (by simp [hk0.2.1]), if_neg (by simp [hk0.1]),
          if_pos (hkall k0 (by simp))]
        have hone : parseOneAttr k0 (k' ++ '=' :: '"' :: (ev ++ ['"']) ++
            (chs.flatten ++ '>' :: rest)) =
            ((k0 :: k', some (attrUnescape ev)), chs.flatten ++ '>' :: rest) := by
          simp only [parseOneAttr]
          have hsplit : k0 :: (k' ++ '=' :: '"' :: (ev ++ ['"']) ++
              (chs.flatten ++ '>' :: rest)) =
              (k0 :: k') ++ ('=' :: '"' :: (ev ++ ('"' ::
                (chs.flatten ++ '>' :: rest)))) := by
            simp
          rw [hsplit, takeWhile_all_append attrNameChar (k0 :: k') _
              (fun x hx => hkall x hx),
            dropWhile_all_append attrNameChar (k0 :: k') _
              (fun x hx => hkall x hx)]
          rw [List.takeWhile_cons, if_neg (by decide), List.append_nil]
          rw [List.dropWhile_cons, if_neg (by decide)]
          rw [parseAttrValue_eq ev (chs.flatten ++ '>' :: rest) hqev]
        rw [hone]
        have hfuel2 : (chs.flatten ++ '>' :: rest).length ≤ fuel := by
          simp only [List.append_assoc, List.cons_append, List.length_append,
            List.length_cons, List.length_nil] at hf2 ⊢
          omega
        rw [parseAttrs_fuel hfuel2 (le_refl _), hp']
        refine ⟨(k0 :: k', some (attrUnescape ev)) :: attrs', rfl, ?_⟩
        rw [List.filterMap_cons, hsafe, hfm']

/-- An alphabetic character is not Python whitespace. -/
theorem alpha_not_space {c : Char} (hc : c.isAlpha = true) :
    isPySpace c = false := by
  have h1 : c ≠ ' ' := fun he => absurd (he ▸ hc) (by decide)
  have h2 : c ≠ '\t' := fun he => absurd (he ▸ hc) (by decide)
  have h3 : c ≠ '\n' := fun he => absurd (he ▸ hc) (by decide)
  have h4 : c ≠ '\r' := fun he => absurd (he ▸ hc) (by decide)
  have h5 : c ≠ Char.ofNat 11 := fun he => absurd (he ▸ hc) (by decide)
  have h6 : c ≠ Char.ofNat 12 := fun he => absurd (he ▸ hc) (by decide)
  unfold isPySpace
  simp [h1, h2, h3, h4, h5, h6]

/-- Flattened sanitized chunks followed by `>` start with a character
that is not a tag-name character. -/
theorem chunks_head_not_tag {p : Policy} {t : Str} (chunks : List Str)
    (hch : ∀ ch ∈ chunks, SanChunk p t ch) (rest : Str) :
    (chunks.flatten ++ '>' :: rest).takeWhile tagNameChar = [] ∧
    (chunks.flatten ++ '>' :: rest).dropWhile tagNameChar =
      chunks.flatten ++ '>' :: rest := by
  cases chunks with
  | nil =>
    rw [List.flatten_nil, List.nil_append]
    exact ⟨by rw [List.takeWhile_cons, if_neg (by decide)],
      by rw [List.dropWhile_cons, if_neg (by decide)]⟩
  | cons ch chs =>
    have hX : ∃ X, ch ++ (chs.flatten ++ '>' :: rest) = ' ' :: X := by
      rcases hch ch (by simp) with ⟨v2, hsh, -, -, -, -⟩ | ⟨k, v, hsh, -, -, -, -⟩
      · exact ⟨_, by rw [hsh]; rfl⟩
      · exact ⟨_, by rw [hsh]; rfl⟩
    obtain ⟨X, hX⟩ := hX
    rw [List.flatten_cons, List.append_assoc, hX]
    exact ⟨by rw [List.takeWhile_cons, if_neg (by decide)],
      by rw [List.dropWhile_cons, if_neg (by decide)]⟩

/-- Definitional unfolding of `parseLt` after a slash. -/
theorem parseLt_slash (r : Str) :
    parseLt ('/' :: r) =
      match parseEndTag r with
      | some (e, rest) => some (e, .normal, rest)
      | none =>
        match findGt r with
        | some (txt, rest) => some (.comment txt, .normal, rest)
        | none => none := rfl

/-- `parseEndTag` on a valid lower-case tag name followed by `>`. -/
theorem parseEndTag_eq {t : Str} (rest : Str) (ht : ValidTagLow t) :
    parseEndTag (t ++ '>' :: rest) = some (.endTag t, rest) := by
  obtain ⟨htne, hthead, htall, htlow⟩ := ht
  rw [List.all_eq_true] at htall
  cases t with
  | nil => exact absurd rfl htne
  | cons t0 t' =>
  have ht0 : t0.isAlpha = true := hthead t0 (by simp)
  have hws : ((t0 :: t') ++ '>' :: rest).dropWhile isPySpace =
      (t0 :: t') ++ '>' :: rest := by
    rw [List.cons_append, List.dropWhile_cons, if_neg (by simp [alpha_not_space ht0])]
  have hdt : ((t0 :: t') ++ '>' :: rest).dropWhile tagNameChar = '>' :: rest := by
    rw [dropWhile_all_append tagNameChar (t0 :: t') _ (fun x hx => htall x hx),
      List.dropWhile_cons, if_neg (by decide)]
  have htt : ((t0 :: t') ++ '>' :: rest).takeWhile tagNameChar = t0 :: t' := by
    rw [takeWhile_all_append tagNameChar (t0 :: t') _ (fun x hx => htall x hx),
      List.takeWhile_cons, if_neg (by decide), List.append_nil]
  have hfg : findGt ('>' :: rest) = some ([], rest) := by
    unfold findGt
    rw [List.dropWhile_cons, if_neg (by decide)]
    dsimp only
    rw [List.takeWhile_cons, if_neg (by decide)]
  unfold parseEndTag
  rw [hws, hdt, htt, hfg]
  have hh : ((t0 :: t') ++ '>' :: rest).head? = some t0 := by simp
  rw [hh]
  dsimp only
  rw [if_pos ht0, htlow]

/-- `parseLt` recognises a sanitized end-tag fragment. -/
theorem parseLt_end {t : Str} (rest : Str) (ht : ValidTagLow t) :
    parseLt ('/' :: (t ++ '>' :: rest)) = some (.endTag t, .normal, rest) := by
  rw [parseLt_slash, parseEndTag_eq rest ht]

/-- `parseLt` recognises a sanitized start-tag fragment: the same tag
and attributes that re-emit exactly the same chunks, in Normal mode. -/
theorem parseLt_start {p : Policy} {t : Str} (chunks : List Str) (rest : Str)
    (ht : ValidTagLow t) (hdrop : t ∉ DROP_CONTENT_TAGS)
    (hch : ∀ ch ∈ chunks, SanChunk p t ch) :
    ∃ attrs, parseLt (t ++ (chunks.flatten ++ '>' :: rest)) =
        some (.startTag t attrs, .normal, rest) ∧
      attrs.filterMap (safeAttrChunk (attrs_allowed_for p t)) = chunks := by
  obtain ⟨htne, hthead, htall, htlow⟩ := ht
  rw [List.all_eq_true] at htall
  obtain ⟨htk, hdr⟩ := chunks_head_not_tag chunks hch rest
  obtain ⟨attrs, hpa, hfm⟩ := parseAttrs_chunks chunks hch rest
    (chunks.flatten ++ '>' :: rest).length (le_refl _)
  cases t with
  | nil => exact absurd rfl htne
  | cons t0 t' =>
  have ht0 : t0.isAlpha = true := hthead t0 (by simp)
  refine ⟨attrs, ?_, hfm⟩
  have hdt : ((t0 :: t') ++ (chunks.flatten ++ '>' :: rest)).dropWhile tagNameChar
      = chunks.flatten ++ '>' :: rest := by
    rw [dropWhile_all_append tagNameChar (t0 :: t') _ (fun x hx => htall x hx), hdr]
  have htt : ((t0 :: t') ++ (chunks.flatten ++ '>' :: rest)).takeWhile tagNameChar
      = t0 :: t' := by
    rw [takeWhile_all_append tagNameChar (t0 :: t') _ (fun x hx => htall x hx), htk,
      List.append_nil]
  have hss : ¬(t0 :: t' = "script".data ∨ t0 :: t' = "style".data) := by
    rintro (h | h)
    · rw [h] at hdrop; exact hdrop (by decide)
    · rw [h] at hdrop; exact hdrop (by decide)
  rw [List.cons_append, parseLt.eq_def]
  split
  · rename_i heq
    exact absurd heq (by simp)
  · rename_i r heq
    exact absurd (List.cons_eq_cons.mp heq).1 (alpha_ne_marks ht0).2.1
  · rename_i r heq
    exact absurd (List.cons_eq_cons.mp heq).1 (alpha_ne_marks ht0).2.2.1
  · rename_i r heq
    exact absurd (List.cons_eq_cons.mp heq).1 (alpha_ne_marks ht0).2.2.2.1
  · rename_i c r heq
    obtain ⟨hc, hr⟩ := List.cons_eq_cons.mp heq
    subst hr
    subst hc
    rw [show t0 :: (t' ++ (chunks.flatten ++ '>' :: rest)) =
      (t0 :: t') ++ (chunks.flatten ++ '>' :: rest) from rfl]
    rw [if_pos ht0, hdt, hpa]
    dsimp only
    rw [if_neg (by decide), htt, htlow, if_neg hss]

/-- `escChar` without quoting leaves every non-markup character alone. -/
theorem escChar_false_self {c : Char} (h1 : c ≠ '&') (h2 : c ≠ '<')
    (h3 : c ≠ '>') : escChar false c = [c] := by
  unfold escChar
  rw [if_neg h1, if_neg h2, if_neg h3, if_neg (by simp), if_neg (by simp)]

/-- Definitional unfolding of `tokGo` in Normal mode on a cons cell. -/
theorem tokGo_normal_cons (fuel : Nat) (c : Char) (r : Str) :
    tokGo (fuel + 1) .normal (c :: r) =
      if c = '<' then
        match parseLt r with
        | some (e, m, rest) => e :: tokGo fuel m rest
        | none => .text ['<'] :: tokGo fuel .normal r
      else if c = '&' then
        match parseAmp r with
        | some (e, rest) => e :: tokGo fuel .normal rest
        | none => .text ['&'] :: tokGo fuel .normal r
      else .text [c] :: tokGo fuel .normal r := rfl

/-- Sanitized text re-tokenizes to non-drop events that re-emit it
verbatim, leaving the remaining input to be tokenized in Normal mode. -/
theorem sanText_reemit {p : Policy} : ∀ {s : Str}, SanText s → ∀ (rest : Str),
    ∃ evs : List Event,
      tokGo ((s ++ rest).length + 1) .normal (s ++ rest) =
        evs ++ tokGo (rest.length + 1) .normal rest ∧
      (∀ e ∈ evs, NonDropEvent e) ∧
      (evs.flatMap (emitN p)).flatten = s := by
  intro s hs
  induction hs with
  | nil => intro rest; exact ⟨[], by simp, by simp, by simp⟩
  | safe c f hc h ih =>
    intro rest
    obtain ⟨evs, htok, hnd, hemit⟩ := ih rest
    refine ⟨.text [c] :: evs, ?_, ?_, ?_⟩
    · have hlen : ((c :: f) ++ rest).length + 1 = ((f ++ rest).length + 1) + 1 := by
        simp
      rw [hlen, List.cons_append, tokGo_normal_cons, if_neg hc.2.1, if_neg hc.1,
        htok]
      rfl
    · intro e he
      rcases List.mem_cons.mp he with rfl | he2
      · trivial
      · exact hnd e he2
    · have he1 : escape false [c] = [c] := by
        unfold escape
        rw [List.map_cons, List.map_nil, List.flatten_cons, List.flatten_nil,
          List.append_nil, escChar_false_self hc.1 hc.2.1 hc.2.2]
      simp [emitN, he1, hemit]
  | amp f h ih =>
    intro rest
    obtain ⟨evs, htok, hnd, hemit⟩ := ih rest
    refine ⟨.entityRef ('a' :: 'm' :: 'p' :: []) :: evs, ?_, ?_, ?_⟩
    · have hsh : ('&' :: 'a' :: 'm' :: 'p' :: ';' :: f) ++ rest =
          '&' :: (('a' :: 'm' :: 'p' :: []) ++ ';' :: (f ++ rest)) := by simp
      rw [hsh]
      have hlen : ('&' :: (('a' :: 'm' :: 'p' :: []) ++ ';' :: (f ++ rest))).length
          + 1 = ((('a' :: 'm' :: 'p' :: []) ++ ';' :: (f ++ rest)).length + 1) + 1 := by
        simp
      rw [hlen, tokGo_normal_cons, if_neg (by decide), if_pos rfl,
        parseAmp_entity ('a' :: 'm' :: 'p' :: []) (f ++ rest)
          ⟨by decide, by decide, by decide⟩]
      dsimp only
      rw [@tokGo_fuel ((('a' :: 'm' :: 'p' :: []) ++ ';' :: (f ++ rest)).length + 1)
        ((f ++ rest).length + 1) .normal (f ++ rest)
        (by simp only [List.length_append, List.length_cons, List.length_nil]; omega)
        (by omega), htok]
      rfl
    · intro e he
      rcases List.mem_cons.mp he with rfl | he2
      · trivial
      · exact hnd e he2
    · have he1 : escape true ('a' :: 'm' :: 'p' :: []) = 'a' :: 'm' :: 'p' :: [] := by
        decide
      simp [emitN, he1, hemit]
  | lt f h ih =>
    intro rest
    obtain ⟨evs, htok, hnd, hemit⟩ := ih rest
    refine ⟨.entityRef ('l' :: 't' :: []) :: evs, ?_, ?_, ?_⟩
    · have hsh : ('&' :: 'l' :: 't' :: ';' :: f) ++ rest =
          '&' :: (('l' :: 't' :: []) ++ ';' :: (f ++ rest)) := by simp
      rw [hsh]
      have hlen : ('&' :: (('l' :: 't' :: []) ++ ';' :: (f ++ rest))).length
          + 1 = ((('l' :: 't' :: []) ++ ';' :: (f ++ rest)).length + 1) + 1 := by
        simp
      rw [hlen, tokGo_normal_cons, if_neg (by decide), if_pos rfl,
        parseAmp_entity ('l' :: 't' :: []) (f ++ rest)
          ⟨by decide, by decide, by decide⟩]
      dsimp only
      rw [@tokGo_fuel ((('l' :: 't' :: []) ++ ';' :: (f ++ rest)).length + 1)
        ((f ++ rest).length + 1) .normal (f ++ rest)
        (by simp only [List.length_append, List.length_cons, List.length_nil]; omega)
        (by omega), htok]
      rfl
    · intro e he
      rcases List.mem_cons.mp he with rfl | he2
      · trivial
      · exact hnd e he2
    · have he1 : escape true ('l' :: 't' :: []) = 'l' :: 't' :: [] := by decide
      simp [emitN, he1, hemit]
  | gt f h ih =>
    intro rest
    obtain ⟨evs, htok, hnd, hemit⟩ := ih rest
    refine ⟨.entityRef ('g' :: 't' :: []) :: evs, ?_, ?_, ?_⟩
    · have hsh : ('&' :: 'g' :: 't' :: ';' :: f) ++ rest =
          '&' :: (('g' :: 't' :: []) ++ ';' :: (f ++ rest)) := by simp
      rw [hsh]
      have hlen : ('&' :: (('g' :: 't' :: []) ++ ';' :: (f ++ rest))).length
          + 1 = ((('g' :: 't' :: []) ++ ';' :: (f ++ rest)).length + 1) + 1 := by
        simp
      rw [hlen, tokGo_normal_cons, if_neg (by decide), if_pos rfl,
        parseAmp_entity ('g' :: 't' :: []) (f ++ rest)
          ⟨by decide, by decide, by decide⟩]
      dsimp only
      rw [@tokGo_fuel ((('g' :: 't' :: []) ++ ';' :: (f ++ rest)).length + 1)
        ((f ++ rest).length + 1) .normal (f ++ rest)
        (by simp only [List.length_append, List.length_cons, List.length_nil]; omega)
        (by omega), htok]
      rfl
    · intro e he
      rcases List.mem_cons.mp he with rfl | he2
      · trivial
      · exact hnd e he2
    · have he1 : escape true ('g' :: 't' :: []) = 'g' :: 't' :: [] := by decide
      simp [emitN, he1, hemit]

/-- Every sanitized output fragment re-tokenizes to non-drop events that
re-emit it verbatim, leaving the rest of the input in Normal mode. -/
theorem frag_reemit {p : Policy} {s : Str} (hs : SanFrag p s) (rest : Str) :
    ∃ evs : List Event,
      tokGo ((s ++ rest).length + 1) .normal (s ++ rest) =
        evs ++ tokGo (rest.length + 1) .normal rest ∧
      (∀ e ∈ evs, NonDropEvent e) ∧
      (evs.flatMap (emitN p)).flatten = s := by
  rcases hs with htext | ⟨n, rfl, hn⟩ | ⟨n, rfl, hn⟩ |
    ⟨t, chunks, rfl, ht, hmem, hdrop, hch⟩ | ⟨t, rfl, ht, hmem⟩
  · exact sanText_reemit htext rest
  · refine ⟨[.entityRef n], ?_,
      (by intro e he; rw [List.mem_singleton] at he; subst he; trivial), ?_⟩
    · have hsh : ('&' :: (n ++ [';'])) ++ rest = '&' :: (n ++ ';' :: rest) := by
        simp
      rw [hsh]
      have hlen : ('&' :: (n ++ ';' :: rest)).length + 1 =
          ((n ++ ';' :: rest).length + 1) + 1 := by simp
      rw [hlen, tokGo_normal_cons, if_neg (by decide), if_pos rfl,
        parseAmp_entity n rest hn]
      dsimp only
      rw [@tokGo_fuel ((n ++ ';' :: rest).length + 1) (rest.length + 1) .normal
        rest (by simp only [List.length_append, List.length_cons]; omega)
        (by omega)]
      rfl
    · simp [emitN, escape_entName hn]
  · refine ⟨[.charRef n], ?_,
      (by intro e he; rw [List.mem_singleton] at he; subst he; trivial), ?_⟩
    · have hsh : ('&' :: '#' :: (n ++ [';'])) ++ rest =
          '&' :: ('#' :: (n ++ ';' :: rest)) := by simp
      rw [hsh]
      have hlen : ('&' :: '#' :: (n ++ ';' :: rest)).length + 1 =
          (('#' :: (n ++ ';' :: rest)).length + 1) + 1 := by simp
      rw [hlen, tokGo_normal_cons, if_neg (by decide), if_pos rfl]
      have hpa : parseAmp ('#' :: (n ++ ';' :: rest)) = some (.charRef n, rest) := by
        rcases hn with ⟨hne, hall, hx⟩ | ⟨x, ds, rfl, hx, hne, hall⟩
        · exact parseAmp_dec n rest hne hall hx
        · rw [List.cons_append]
          exact parseAmp_hex x ds rest hx hne hall
      rw [hpa]
      dsimp only
      rw [@tokGo_fuel (('#' :: (n ++ ';' :: rest)).length + 1) (rest.length + 1)
        .normal rest (by simp only [List.length_append, List.length_cons]; omega)
        (by omega)]
      rfl
    · simp [emitN, escape_refName hn]
  · obtain ⟨attrs, hps, hfm⟩ := parseLt_start chunks rest ht hdrop hch
    have hlow : lowerS t = t := ht.2.2.2
    refine ⟨[.startTag t attrs], ?_, ?_, ?_⟩
    · have hsh : ('<' :: (t ++ chunks.flatten ++ ['>'])) ++ rest =
          '<' :: (t ++ (chunks.flatten ++ '>' :: rest)) := by simp
      rw [hsh]
      have hlen : ('<' :: (t ++ (chunks.flatten ++ '>' :: rest))).length + 1 =
          ((t ++ (chunks.flatten ++ '>' :: rest)).length + 1) + 1 := by simp
      rw [hlen, tokGo_normal_cons, if_pos rfl, hps]
      dsimp only
      rw [@tokGo_fuel ((t ++ (chunks.flatten ++ '>' :: rest)).length + 1)
        (rest.length + 1) .normal rest
        (by simp only [List.length_append, List.length_cons]; omega) (by omega)]
      rfl
    · intro e he
      rw [List.mem_singleton] at he
      subst he
      show lowerS t ∉ DROP_CONTENT_TAGS
      rw [hlow]
      exact hdrop
    · simp only [List.flatMap_cons, List.flatMap_nil, List.append_nil, emitN]
      rw [hlow, if_neg hdrop, if_pos hmem]
      unfold emit_start
      rw [hlow, hfm]
      simp
  · have hlow : lowerS t = t := ht.2.2.2
    refine ⟨[.endTag t], ?_,
      (by intro e he; rw [List.mem_singleton] at he; subst he; trivial), ?_⟩
    · have hsh : ('<' :: '/' :: (t ++ ['>'])) ++ rest =
          '<' :: ('/' :: (t ++ '>' :: rest)) := by simp
      rw [hsh]
      have hlen : ('<' :: '/' :: (t ++ '>' :: rest)).length + 1 =
          (('/' :: (t ++ '>' :: rest)).length + 1) + 1 := by simp
      rw [hlen, tokGo_normal_cons, if_pos rfl, parseLt_end rest ht]
      dsimp only
      rw [@tokGo_fuel (('/' :: (t ++ '>' :: rest)).length + 1) (rest.length + 1)
        .normal rest (by simp only [List.length_append, List.length_cons]; omega)
        (by omega)]
      rfl
    · simp only [List.flatMap_cons, List.flatMap_nil, List.append_nil, emitN]
      rw [hlow, if_pos hmem]
      unfold emit_end
      rw [hlow, if_pos hmem]
      simp

/-- A list of sanitized output fragments re-tokenizes, as a whole, to
non-drop events that re-emit exactly the concatenated fragments. -/
theorem tok_reemit {p : Policy} : ∀ (F : List Str), (∀ s ∈ F, SanFrag p s) →
    ∃ evs : List Event, tokenize F.flatten = evs ∧
      (∀ e ∈ evs, NonDropEvent e) ∧
      (evs.flatMap (emitN p)).flatten = F.flatten := by
  intro F
  induction F with
  | nil => intro _; exact ⟨[], rfl, by simp, by simp⟩
  | cons s F ih =>
    intro hF
    obtain ⟨evs2, htok2, hnd2, hemit2⟩ := ih (fun s hs => hF s (by simp [hs]))
    obtain ⟨evs1, htok1, hnd1, hemit1⟩ := frag_reemit (hF s (by simp)) F.flatten
    refine ⟨evs1 ++ evs2, ?_, ?_, ?_⟩
    · rw [List.flatten_cons]
      unfold tokenize
      rw [htok1,
        show tokGo (F.flatten.length + 1) .normal F.flatten =
          tokenize F.flatten from rfl, htok2]
    · intro e he
      rcases List.mem_append.mp he with h | h
      · exact hnd1 e h
      · exact hnd2 e h
    · rw [List.flatMap_append, List.flatten_append, hemit1, hemit2,
        List.flatten_cons]

/-- C4: `sanitize` is idempotent: for every input string `x` and every
policy `p`, `sanitize_html(sanitize_html(x, p), p) = sanitize_html(x, p)`. -/
theorem c4_idempotent (x : String) (p : Policy) :
    sanitize_html (some (sanitize_html (some x) p)) p =
      sanitize_html (some x) p := by
  have hvalid : ∀ e ∈ tokenize x.data, ValidEvent e :=
    tokGo_valid (x.data.length + 1) .normal x.data trivial
  have hfrag := runEvents_SanFrag (lowerPolicy p) (tokenize x.data) hvalid
  obtain ⟨evs, htok, hnd, hemit⟩ :=
    tok_reemit ((runEvents (lowerPolicy p) (tokenize x.data)).out) hfrag
  show (⟨sanitizeEvents (lowerPolicy p)
      (tokenize ((runEvents (lowerPolicy p) (tokenize x.data)).out.flatten))⟩ :
        String) =
    ⟨(runEvents (lowerPolicy p) (tokenize x.data)).out.flatten⟩
  rw [htok]
  congr 1
  show (runEvents (lowerPolicy p) evs).out.flatten = _
  unfold runEvents
  rw [foldl_emitN (lowerPolicy p) evs initState rfl hnd]
  simpa using hemit
